import Mathlib

/-!
Verification development for the procedural-terrain-generation engine.

Shallow embedding of the core data structures and operations:
- the bounded LRU cache (src/game/terrain/cache.rs),
- the quadtree LOD index (src/game/terrain/tree.rs),
- the task-pipeline handlers over the two caches (src/game/terrain/mod.rs),
- mesh welding (src/game/mesh.rs),
- region polygon predicates (src/game/base.rs).

Modelling conventions:
- `Instant` timestamps are modelled as `Nat` stamps passed in explicitly
  (the caller threads a clock); `Reverse(Instant)` priorities mean that the
  priority queue pops the entry with the smallest stamp (the oldest).
- Rust `HashMap` is modelled as an association list with distinct keys;
  `PriorityQueue` as an association list from keys to stamps.
- `assert!` failures (and Rust arithmetic-overflow panics) are modelled as
  `Except.error`; `u32` arithmetic is `Nat` arithmetic reduced mod `2 ^ 32`
  with Rust release-mode wrapping/shift-masking semantics where relevant.
- Floating-point region geometry that only gates recursion is abstracted as a
  Boolean oracle (`Box3 → Bool`); structural claims are proved for every
  oracle, which subsumes the concrete float test.
-/

/-! ## Association-list primitives (model of HashMap / PriorityQueue storage) -/

/-- Models `HashMap::get`: first binding of the key, if any. -/
def lookupA {K V : Type} [DecidableEq K] : List (K × V) → K → Option V
  | [], _ => none
  | (k', v') :: t, k => if k' = k then some v' else lookupA t k

/-- Models `HashMap::insert`: overwrite in place if the key is bound, else append. -/
def insertA {K V : Type} [DecidableEq K] : List (K × V) → K → V → List (K × V)
  | [], k, v => [(k, v)]
  | (k', v') :: t, k, v => if k' = k then (k, v) :: t else (k', v') :: insertA t k v

/-- Models `HashMap::remove` / removal of a popped queue entry: drop every
binding of the key (there is at most one, keys being distinct). -/
def removeA {K V : Type} [DecidableEq K] : List (K × V) → K → List (K × V)
  | [], _ => []
  | (k', v') :: t, k => if k' = k then removeA t k else (k', v') :: removeA t k

/-- Key multiset of an association list. -/
def keysA {K V : Type} (l : List (K × V)) : List K := l.map Prod.fst

/-! ## Bounded cache, src/game/terrain/cache.rs

`last_accessed` holds `Reverse(Instant)` priorities; a larger `Nat` stamp is a
more recent access. -/

/-- Models `PriorityQueue::push_decrease` on `Reverse(Instant)` priorities: a
fresh key is pushed, an existing key keeps the more recent (larger) stamp,
because in `Reverse` order `push_decrease` keeps the smaller priority. -/
def pushDecrease {K : Type} [DecidableEq K] : List (K × Nat) → K → Nat → List (K × Nat)
  | [], k, t => [(k, t)]
  | (k', t') :: rest, k, t =>
    if k' = k then (k, max t' t) :: rest else (k', t') :: pushDecrease rest k t

/-- Models `PriorityQueue::pop` on `Reverse(Instant)` priorities: it yields an
entry with the oldest (smallest) stamp.  The heap's choice among equal stamps
is modelled as the first minimal entry. -/
def findOldest {K : Type} : List (K × Nat) → Option (K × Nat)
  | [] => none
  | p :: rest =>
    match findOldest rest with
    | none => some p
    | some q => if p.2 ≤ q.2 then some p else some q

/-- The bounded cache `Cache<K, V>` of src/game/terrain/cache.rs. -/
structure Cache (K V : Type) where
  cache : List (K × V)
  last_accessed : List (K × Nat)
  max_size : Nat

/-- `Cache::new(max_size)`. -/
def Cache.new (K V : Type) (max_size : Nat) : Cache K V :=
  { cache := [], last_accessed := [], max_size := max_size }

/-- `Cache::get`: a read-only lookup; it takes `&self` and cannot change the
cache or the recency queue. -/
def Cache.get {K V : Type} [DecidableEq K] (s : Cache K V) (k : K) : Option V :=
  lookupA s.cache k

/-- `Cache::get_mut`: same lookup; the recency queue is untouched.  In-place
mutation of the found value is modelled separately by `Cache.modifyValue`. -/
def Cache.get_mut {K V : Type} [DecidableEq K] (s : Cache K V) (k : K) : Option V :=
  lookupA s.cache k

/-- Mutation through the reference returned by `Cache::get_mut`: replaces the
stored value without touching recency. -/
def Cache.modifyValue {K V : Type} [DecidableEq K] (s : Cache K V) (k : K) (f : V → V) :
    Cache K V :=
  { s with cache := s.cache.map (fun p => if p.1 = k then (p.1, f p.2) else p) }

/-- `Cache::insert_with_priority(key, value, priority)`: push-decrease the
recency entry, insert into the map, then if `len > max_size` pop the oldest
queue entry and remove that key from the map. -/
def Cache.insert_with_priority {K V : Type} [DecidableEq K]
    (s : Cache K V) (k : K) (v : V) (t : Nat) : Cache K V :=
  if s.max_size < (insertA s.cache k v).length then
    match findOldest (pushDecrease s.last_accessed k t) with
    | some p => { cache := removeA (insertA s.cache k v) p.1,
                  last_accessed := removeA (pushDecrease s.last_accessed k t) p.1,
                  max_size := s.max_size }
    | none => { cache := insertA s.cache k v,
                last_accessed := pushDecrease s.last_accessed k t,
                max_size := s.max_size }
  else
    { cache := insertA s.cache k v,
      last_accessed := pushDecrease s.last_accessed k t,
      max_size := s.max_size }

/-- `Cache::insert`: `insert_with_priority` at the current time (`now` is the
explicitly threaded clock value standing for `Instant::now()`). -/
def Cache.insert {K V : Type} [DecidableEq K] (s : Cache K V) (k : K) (v : V) (now : Nat) :
    Cache K V :=
  s.insert_with_priority k v now

/-- `Cache::update_last_accessed`: refresh the stamp of a key only if it is
currently cached. -/
def Cache.update_last_accessed {K V : Type} [DecidableEq K] (s : Cache K V) (k : K)
    (now : Nat) : Cache K V :=
  if (lookupA s.cache k).isSome then
    { s with last_accessed := pushDecrease s.last_accessed k now }
  else s

/-- `Cache::clear`: drop both the map and the recency queue. -/
def Cache.clear {K V : Type} (s : Cache K V) : Cache K V :=
  { cache := [], last_accessed := [], max_size := s.max_size }

/-- One observable call against a cache; the `Nat` argument of the mutating
calls is the clock value at the call. -/
inductive CacheOp (K V : Type) where
  | insert (k : K) (v : V) (now : Nat)
  | insertWithPriority (k : K) (v : V) (t : Nat)
  | getOp (k : K)
  | getMutOp (k : K)
  | updateLastAccessed (k : K) (now : Nat)
  | clearOp

/-- Effect of one call on the cache state (`get`/`get_mut` take `&self` and
leave the state unchanged). -/
def CacheOp.step {K V : Type} [DecidableEq K] (s : Cache K V) : CacheOp K V → Cache K V
  | .insert k v now => s.insert k v now
  | .insertWithPriority k v t => s.insert_with_priority k v t
  | .getOp _ => s
  | .getMutOp _ => s
  | .updateLastAccessed k now => s.update_last_accessed k now
  | .clearOp => s

/-- Run a call sequence against a fresh cache of capacity `m`. -/
def runCacheOps {K V : Type} [DecidableEq K] (m : Nat) (ops : List (CacheOp K V)) :
    Cache K V :=
  ops.foldl CacheOp.step (Cache.new K V m)


/-! ## Association-list and queue lemmas -/

theorem lookupA_isSome_iff {K V : Type} [DecidableEq K] (l : List (K × V)) (k : K) :
    (lookupA l k).isSome = true ↔ k ∈ keysA l := by
  induction l with
  | nil => simp [lookupA, keysA]
  | cons p t ih =>
    obtain ⟨k', v'⟩ := p
    by_cases h : k' = k
    · subst h
      simp [lookupA, keysA]
    · simp only [lookupA, if_neg h, keysA, List.map_cons, List.mem_cons]
      simp only [keysA] at ih
      rw [ih]
      constructor
      · exact Or.inr
      · rintro (he | hm)
        · exact absurd he.symm h
        · exact hm

theorem mem_keysA_insertA {K V : Type} [DecidableEq K] (l : List (K × V)) (k x : K) (v : V) :
    x ∈ keysA (insertA l k v) ↔ x ∈ keysA l ∨ x = k := by
  induction l with
  | nil => simp [insertA, keysA]
  | cons p t ih =>
    obtain ⟨k', v'⟩ := p
    by_cases h : k' = k
    · subst h
      simp [insertA, keysA]
      tauto
    · simp only [insertA, if_neg h, keysA, List.map_cons, List.mem_cons]
      simp only [keysA] at ih
      rw [ih]
      tauto

theorem nodup_keysA_insertA {K V : Type} [DecidableEq K] (l : List (K × V)) (k : K) (v : V)
    (hn : (keysA l).Nodup) : (keysA (insertA l k v)).Nodup := by
  induction l with
  | nil => simp [insertA, keysA]
  | cons p t ih =>
    obtain ⟨k', v'⟩ := p
    simp only [keysA, List.map_cons, List.nodup_cons] at hn
    by_cases h : k' = k
    · subst h
      simp [insertA, keysA]
      simpa [keysA] using hn
    · simp only [insertA, if_neg h, keysA, List.map_cons, List.nodup_cons]
      refine ⟨?_, ih hn.2⟩
      intro hmem
      rcases (mem_keysA_insertA t k k' v).1 hmem with hm | he
      · exact hn.1 hm
      · exact h he

theorem length_insertA {K V : Type} [DecidableEq K] (l : List (K × V)) (k : K) (v : V) :
    (insertA l k v).length = if k ∈ keysA l then l.length else l.length + 1 := by
  induction l with
  | nil => simp [insertA, keysA]
  | cons p t ih =>
    obtain ⟨k', v'⟩ := p
    by_cases h : k' = k
    · subst h
      simp [insertA, keysA]
    · simp only [insertA, if_neg h, keysA, List.map_cons, List.mem_cons, List.length_cons]
      simp only [keysA] at ih
      rw [ih]
      have hne : ¬ k = k' := fun he => h he.symm
      by_cases hm : k ∈ List.map Prod.fst t
      · simp [hm, hne]
      · simp [hm, hne]

theorem mem_keysA_pushDecrease {K : Type} [DecidableEq K] (la : List (K × Nat)) (k x : K)
    (t : Nat) : x ∈ keysA (pushDecrease la k t) ↔ x ∈ keysA la ∨ x = k := by
  induction la with
  | nil => simp [pushDecrease, keysA]
  | cons p rest ih =>
    obtain ⟨k', t'⟩ := p
    by_cases h : k' = k
    · subst h
      simp [pushDecrease, keysA]
      tauto
    · simp only [pushDecrease, if_neg h, keysA, List.map_cons, List.mem_cons]
      simp only [keysA] at ih
      rw [ih]
      tauto

theorem nodup_keysA_pushDecrease {K : Type} [DecidableEq K] (la : List (K × Nat)) (k : K)
    (t : Nat) (hn : (keysA la).Nodup) : (keysA (pushDecrease la k t)).Nodup := by
  induction la with
  | nil => simp [pushDecrease, keysA]
  | cons p rest ih =>
    obtain ⟨k', t'⟩ := p
    simp only [keysA, List.map_cons, List.nodup_cons] at hn
    by_cases h : k' = k
    · subst h
      simp [pushDecrease, keysA]
      simpa [keysA] using hn
    · simp only [pushDecrease, if_neg h, keysA, List.map_cons, List.nodup_cons]
      refine ⟨?_, ih hn.2⟩
      intro hmem
      rcases (mem_keysA_pushDecrease rest k k' t).1 hmem with hm | he
      · exact hn.1 hm
      · exact h he

theorem pushDecrease_ne_nil {K : Type} [DecidableEq K] (la : List (K × Nat)) (k : K)
    (t : Nat) : pushDecrease la k t ≠ [] := by
  cases la with
  | nil => simp [pushDecrease]
  | cons p rest =>
    obtain ⟨k', t'⟩ := p
    simp only [pushDecrease]
    split <;> simp

theorem removeA_cons_self {K V : Type} [DecidableEq K] (t : List (K × V)) (k : K) (v' : V) :
    removeA ((k, v') :: t) k = removeA t k := by
  simp [removeA]

theorem removeA_cons_ne {K V : Type} [DecidableEq K] (t : List (K × V)) (k k' : K) (v' : V)
    (h : ¬ k' = k) : removeA ((k', v') :: t) k = (k', v') :: removeA t k := by
  simp [removeA, h]

theorem mem_keysA_removeA {K V : Type} [DecidableEq K] (l : List (K × V)) (k x : K) :
    x ∈ keysA (removeA l k) ↔ x ∈ keysA l ∧ x ≠ k := by
  induction l with
  | nil => simp [removeA, keysA]
  | cons p t ih =>
    obtain ⟨k', v'⟩ := p
    by_cases h : k' = k
    · subst h
      rw [removeA_cons_self, ih]
      simp only [keysA, List.map_cons, List.mem_cons]
      constructor
      · rintro ⟨hm, hne⟩
        exact ⟨Or.inr hm, hne⟩
      · rintro ⟨(he | hm), hne⟩
        · exact absurd he hne
        · exact ⟨hm, hne⟩
    · rw [removeA_cons_ne t k k' v' h]
      simp only [keysA, List.map_cons, List.mem_cons]
      simp only [keysA] at ih
      rw [ih]
      constructor
      · rintro (he | ⟨hm, hne⟩)
        · exact ⟨Or.inl he, he ▸ h⟩
        · exact ⟨Or.inr hm, hne⟩
      · rintro ⟨(he | hm), hne⟩
        · exact Or.inl he
        · exact Or.inr ⟨hm, hne⟩

theorem nodup_keysA_removeA {K V : Type} [DecidableEq K] (l : List (K × V)) (k : K)
    (hn : (keysA l).Nodup) : (keysA (removeA l k)).Nodup := by
  induction l with
  | nil => simp [removeA, keysA]
  | cons p t ih =>
    obtain ⟨k', v'⟩ := p
    simp only [keysA, List.map_cons, List.nodup_cons] at hn
    by_cases h : k' = k
    · subst h
      rw [removeA_cons_self]
      exact ih hn.2
    · rw [removeA_cons_ne t k k' v' h]
      simp only [keysA, List.map_cons, List.nodup_cons]
      refine ⟨?_, ih hn.2⟩
      intro hmem
      exact hn.1 ((mem_keysA_removeA t k k').1 hmem).1

theorem removeA_eq_self {K V : Type} [DecidableEq K] (l : List (K × V)) (k : K)
    (h : k ∉ keysA l) : removeA l k = l := by
  induction l with
  | nil => simp [removeA]
  | cons p t ih =>
    obtain ⟨k', v'⟩ := p
    simp only [keysA, List.map_cons, List.mem_cons, not_or] at h
    have hne : ¬ k' = k := fun he => h.1 he.symm
    rw [removeA_cons_ne t k k' v' hne, ih h.2]

theorem length_removeA {K V : Type} [DecidableEq K] (l : List (K × V)) (k : K)
    (hn : (keysA l).Nodup) (hm : k ∈ keysA l) :
    (removeA l k).length + 1 = l.length := by
  induction l with
  | nil => simp [keysA] at hm
  | cons p t ih =>
    obtain ⟨k', v'⟩ := p
    simp only [keysA, List.map_cons, List.nodup_cons] at hn
    by_cases h : k' = k
    · subst h
      rw [removeA_cons_self, removeA_eq_self t k' (fun hmm => hn.1 hmm)]
      simp
    · have hm' : k ∈ keysA t := by
        simp only [keysA, List.map_cons, List.mem_cons] at hm
        rcases hm with he | hmm
        · exact absurd he.symm h
        · exact hmm
      have := ih hn.2 hm'
      rw [removeA_cons_ne t k k' v' h]
      simp only [List.length_cons]
      omega

theorem findOldest_eq_none {K : Type} (la : List (K × Nat)) :
    findOldest la = none ↔ la = [] := by
  cases la with
  | nil => simp [findOldest]
  | cons q rest =>
    cases hr : findOldest rest with
    | none => simp [findOldest, hr]
    | some r => by_cases hle : q.2 ≤ r.2 <;> simp [findOldest, hr, hle]

theorem findOldest_mem {K : Type} (la : List (K × Nat)) (p : K × Nat)
    (h : findOldest la = some p) : p ∈ la := by
  induction la generalizing p with
  | nil => simp [findOldest] at h
  | cons q rest ih =>
    cases hr : findOldest rest with
    | none =>
      simp only [findOldest, hr] at h
      cases h
      exact List.mem_cons_self q rest
    | some r =>
      simp only [findOldest, hr] at h
      by_cases hle : q.2 ≤ r.2
      · rw [if_pos hle] at h
        cases h
        exact List.mem_cons_self q rest
      · rw [if_neg hle] at h
        cases h
        exact List.mem_cons_of_mem q (ih _ hr)

theorem findOldest_min {K : Type} (la : List (K × Nat)) (p : K × Nat)
    (h : findOldest la = some p) : ∀ q ∈ la, p.2 ≤ q.2 := by
  induction la generalizing p with
  | nil => simp [findOldest] at h
  | cons q rest ih =>
    cases hr : findOldest rest with
    | none =>
      simp only [findOldest, hr] at h
      have hnil : rest = [] := (findOldest_eq_none rest).1 hr
      subst hnil
      cases h
      intro x hx
      simp only [List.mem_singleton] at hx
      subst hx
      exact le_refl _
    | some r =>
      simp only [findOldest, hr] at h
      by_cases hle : q.2 ≤ r.2
      · rw [if_pos hle] at h
        cases h
        intro x hx
        rcases List.mem_cons.1 hx with he | hmm
        · subst he
          exact le_refl _
        · exact le_trans hle (ih r hr x hmm)
      · rw [if_neg hle] at h
        cases h
        intro x hx
        rcases List.mem_cons.1 hx with he | hmm
        · subst he
          omega
        · exact ih p hr x hmm

theorem findOldest_isSome {K : Type} (la : List (K × Nat)) (h : la ≠ []) :
    ∃ p, findOldest la = some p := by
  cases hf : findOldest la with
  | none => exact absurd ((findOldest_eq_none la).1 hf) h
  | some p => exact ⟨p, rfl⟩

/-! ## Cache invariant -/

/-- Structural well-formedness maintained by every cache call: keys are
distinct in both components and the map and the recency queue hold exactly
the same key set. -/
def CacheWF {K V : Type} (s : Cache K V) : Prop :=
  (keysA s.cache).Nodup ∧ (keysA s.last_accessed).Nodup ∧
    ∀ x, x ∈ keysA s.cache ↔ x ∈ keysA s.last_accessed

/-- Reachable-state invariant of a capacity-`m` cache. -/
def CacheInv {K V : Type} (m : Nat) (s : Cache K V) : Prop :=
  CacheWF s ∧ s.cache.length ≤ s.max_size ∧ s.max_size = m

theorem insert_with_priority_inv {K V : Type} [DecidableEq K] (s : Cache K V) (k : K)
    (v : V) (t : Nat) (hwf : CacheWF s) (hlen : s.cache.length ≤ s.max_size) :
    CacheWF (s.insert_with_priority k v t) ∧
      (s.insert_with_priority k v t).cache.length ≤ s.max_size ∧
      (s.insert_with_priority k v t).max_size = s.max_size := by
  obtain ⟨hnc, hnl, hsync⟩ := hwf
  have hnc' : (keysA (insertA s.cache k v)).Nodup := nodup_keysA_insertA _ k v hnc
  have hnl' : (keysA (pushDecrease s.last_accessed k t)).Nodup :=
    nodup_keysA_pushDecrease _ k t hnl
  have hsync' : ∀ x, x ∈ keysA (insertA s.cache k v) ↔
      x ∈ keysA (pushDecrease s.last_accessed k t) := by
    intro x
    rw [mem_keysA_insertA, mem_keysA_pushDecrease, hsync x]
  unfold Cache.insert_with_priority
  by_cases hover : s.max_size < (insertA s.cache k v).length
  · rw [if_pos hover]
    obtain ⟨p, hp⟩ := findOldest_isSome (pushDecrease s.last_accessed k t)
      (pushDecrease_ne_nil _ _ _)
    rw [hp]
    have hpmem : p.1 ∈ keysA (pushDecrease s.last_accessed k t) :=
      List.mem_map_of_mem Prod.fst (findOldest_mem _ _ hp)
    have hpc : p.1 ∈ keysA (insertA s.cache k v) := (hsync' p.1).2 hpmem
    have hlen2 : (insertA s.cache k v).length ≤ s.cache.length + 1 := by
      rw [length_insertA]
      split <;> omega
    have hrem := length_removeA (insertA s.cache k v) p.1 hnc' hpc
    refine ⟨⟨nodup_keysA_removeA _ _ hnc', nodup_keysA_removeA _ _ hnl', ?_⟩, ?_, rfl⟩
    · intro x
      rw [mem_keysA_removeA, mem_keysA_removeA, hsync' x]
    · simp only
      omega
  · rw [if_neg hover]
    exact ⟨⟨hnc', hnl', hsync'⟩, by simp only; omega, rfl⟩

theorem cacheOp_step_inv {K V : Type} [DecidableEq K] (m : Nat) (s : Cache K V)
    (op : CacheOp K V) (h : CacheInv m s) : CacheInv m (CacheOp.step s op) := by
  obtain ⟨hwf, hlen, hms⟩ := h
  cases op with
  | insert k v now =>
    have hi := insert_with_priority_inv s k v now hwf hlen
    refine ⟨hi.1, ?_, ?_⟩
    · rw [CacheOp.step, Cache.insert, hi.2.2]
      exact hi.2.1
    · rw [CacheOp.step, Cache.insert, hi.2.2, hms]
  | insertWithPriority k v t =>
    have hi := insert_with_priority_inv s k v t hwf hlen
    refine ⟨hi.1, ?_, ?_⟩
    · rw [CacheOp.step, hi.2.2]
      exact hi.2.1
    · rw [CacheOp.step, hi.2.2, hms]
  | getOp k => exact ⟨hwf, hlen, hms⟩
  | getMutOp k => exact ⟨hwf, hlen, hms⟩
  | updateLastAccessed k now =>
    obtain ⟨hnc, hnl, hsync⟩ := hwf
    simp only [CacheOp.step, Cache.update_last_accessed]
    by_cases hk : (lookupA s.cache k).isSome = true
    · rw [if_pos hk]
      have hkc : k ∈ keysA s.cache := (lookupA_isSome_iff s.cache k).1 hk
      refine ⟨⟨hnc, nodup_keysA_pushDecrease _ k now hnl, ?_⟩, hlen, hms⟩
      intro x
      rw [mem_keysA_pushDecrease]
      constructor
      · intro hx
        exact Or.inl ((hsync x).1 hx)
      · rintro (hx | he)
        · exact (hsync x).2 hx
        · exact he ▸ hkc
    · rw [if_neg hk]
      exact ⟨⟨hnc, hnl, hsync⟩, hlen, hms⟩
  | clearOp => exact ⟨hwf, hlen, hms⟩

theorem runCacheOps_inv {K V : Type} [DecidableEq K] (m : Nat)
    (ops : List (CacheOp K V)) : CacheInv m (runCacheOps m ops) := by
  have hstart : CacheInv m (Cache.new K V m) := by
    refine ⟨⟨?_, ?_, ?_⟩, ?_, rfl⟩ <;> simp [Cache.new, keysA]
  unfold runCacheOps
  have hgen : ∀ (l : List (CacheOp K V)) (s : Cache K V), CacheInv m s →
      CacheInv m (l.foldl CacheOp.step s) := by
    intro l
    induction l with
    | nil =>
      intro s hs
      simpa using hs
    | cons op rest ih =>
      intro s hs
      simp only [List.foldl_cons]
      exact ih _ (cacheOp_step_inv m s op hs)
  exact hgen ops _ hstart

/-! ## Claim C1 -/

/-- C1: for every bounded cache and every sequence of
`insert`/`insert_with_priority` calls (mixed with any other calls), after each
call the map holds at most `max_size` entries; a single insert call evicts at
most one entry; and when an insert overflows the capacity, the entry evicted
is exactly the one whose last-accessed stamp is oldest among the entries
present at that moment (the stamps after refreshing the inserted key), the
stamps being pairwise distinct as `Instant::now()` is strictly monotone. -/
theorem C1_bounded_cache_lru {K V : Type} [DecidableEq K] :
    (∀ (m : Nat) (ops : List (CacheOp K V)), (runCacheOps m ops).cache.length ≤ m)
    ∧ (∀ (m : Nat) (ops : List (CacheOp K V)) (k : K) (v : V) (t : Nat) (k1 k2 : K),
        k1 ∈ keysA (runCacheOps m ops).cache →
        k2 ∈ keysA (runCacheOps m ops).cache →
        k1 ∉ keysA ((runCacheOps m ops).insert_with_priority k v t).cache →
        k2 ∉ keysA ((runCacheOps m ops).insert_with_priority k v t).cache →
        k1 = k2)
    ∧ (∀ (m : Nat) (ops : List (CacheOp K V)) (k : K) (v : V) (t : Nat),
        ((pushDecrease (runCacheOps m ops).last_accessed k t).map Prod.snd).Nodup →
        (runCacheOps m ops).max_size < (insertA (runCacheOps m ops).cache k v).length →
        ∃ p ∈ pushDecrease (runCacheOps m ops).last_accessed k t,
          (∀ q ∈ pushDecrease (runCacheOps m ops).last_accessed k t, q ≠ p → p.2 < q.2) ∧
          ((runCacheOps m ops).insert_with_priority k v t).cache
            = removeA (insertA (runCacheOps m ops).cache k v) p.1 ∧
          ((runCacheOps m ops).insert_with_priority k v t).last_accessed
            = removeA (pushDecrease (runCacheOps m ops).last_accessed k t) p.1) := by
  refine ⟨?_, ?_, ?_⟩
  · intro m ops
    have h := runCacheOps_inv (K := K) (V := V) m ops
    have h1 := h.2.1
    have h2 := h.2.2
    omega
  · intro m ops k v t k1 k2 h1 h2 h1' h2'
    unfold Cache.insert_with_priority at h1' h2'
    by_cases hover : (runCacheOps m ops).max_size < (insertA (runCacheOps m ops).cache k v).length
    · rw [if_pos hover] at h1' h2'
      obtain ⟨p, hp⟩ := findOldest_isSome (pushDecrease (runCacheOps m ops).last_accessed k t)
        (pushDecrease_ne_nil _ _ _)
      rw [hp] at h1' h2'
      simp only at h1' h2'
      have e1 : k1 = p.1 := by
        by_contra hne
        exact h1' ((mem_keysA_removeA _ _ _).2
          ⟨(mem_keysA_insertA _ k k1 v).2 (Or.inl h1), hne⟩)
      have e2 : k2 = p.1 := by
        by_contra hne
        exact h2' ((mem_keysA_removeA _ _ _).2
          ⟨(mem_keysA_insertA _ k k2 v).2 (Or.inl h2), hne⟩)
      rw [e1, e2]
    · rw [if_neg hover] at h1'
      exact absurd ((mem_keysA_insertA _ k k1 v).2 (Or.inl h1)) h1'
  · intro m ops k v t hdist hover
    obtain ⟨p, hp⟩ := findOldest_isSome (pushDecrease (runCacheOps m ops).last_accessed k t)
      (pushDecrease_ne_nil _ _ _)
    have hpmem := findOldest_mem _ _ hp
    refine ⟨p, hpmem, ?_, ?_, ?_⟩
    · intro q hq hne
      have hle := findOldest_min _ _ hp q hq
      rcases lt_or_eq_of_le hle with hlt | heq
      · exact hlt
      · exact absurd (List.inj_on_of_nodup_map hdist hq hpmem heq.symm) hne
    · unfold Cache.insert_with_priority
      rw [if_pos hover, hp]
    · unfold Cache.insert_with_priority
      rw [if_pos hover, hp]

/-- Witness for C1 at a concrete run: capacity 1, key 0 inserted at time 1,
then key 1 inserted at time 2, which evicts key 0 (the oldest entry). -/
theorem C1_bounded_cache_lru_witness :
    (runCacheOps (K := Nat) (V := Nat) 1 [CacheOp.insert 0 10 1]).cache.length ≤ 1 ∧
    (∃ p ∈ pushDecrease
        (runCacheOps (K := Nat) (V := Nat) 1 [CacheOp.insert 0 10 1]).last_accessed 1 2,
      (∀ q ∈ pushDecrease
          (runCacheOps (K := Nat) (V := Nat) 1 [CacheOp.insert 0 10 1]).last_accessed 1 2,
        q ≠ p → p.2 < q.2) ∧
      ((runCacheOps (K := Nat) (V := Nat) 1 [CacheOp.insert 0 10 1]).insert_with_priority
          1 11 2).cache
        = removeA (insertA (runCacheOps (K := Nat) (V := Nat) 1
            [CacheOp.insert 0 10 1]).cache 1 11) p.1 ∧
      ((runCacheOps (K := Nat) (V := Nat) 1 [CacheOp.insert 0 10 1]).insert_with_priority
          1 11 2).last_accessed
        = removeA (pushDecrease (runCacheOps (K := Nat) (V := Nat) 1
            [CacheOp.insert 0 10 1]).last_accessed 1 2) p.1) := by
  constructor
  · exact C1_bounded_cache_lru.1 1 [CacheOp.insert 0 10 1]
  · exact C1_bounded_cache_lru.2.2 1 [CacheOp.insert 0 10 1] 1 11 2 (by decide) (by decide)

/-! ## Claim C2 -/

/-- C2: `get` and `get_mut` leave the recency state (indeed the whole cache
state) unchanged; concretely on a capacity-2 cache, inserting keys
A=0, B=1, C=2 at times 1, 2, 3 leaves exactly keys B and C; a `get` of B
followed by inserting D=3 leaves keys C and D (the `get` did not refresh B);
while `update_last_accessed(B)` instead of the `get` makes the same insert of
D leave keys B and D. -/
theorem C2_get_does_not_refresh_recency :
    (∀ (s : Cache Nat Nat) (k : Nat),
      CacheOp.step s (CacheOp.getOp k) = s ∧ CacheOp.step s (CacheOp.getMutOp k) = s)
    ∧ keysA (runCacheOps 2 [CacheOp.insert (V := Nat) 0 10 1, CacheOp.insert 1 11 2,
        CacheOp.insert 2 12 3]).cache = [1, 2]
    ∧ keysA (runCacheOps 2 [CacheOp.insert (V := Nat) 0 10 1, CacheOp.insert 1 11 2,
        CacheOp.insert 2 12 3, CacheOp.getOp 1, CacheOp.insert 3 13 4]).cache = [2, 3]
    ∧ keysA (runCacheOps 2 [CacheOp.insert (V := Nat) 0 10 1, CacheOp.insert 1 11 2,
        CacheOp.insert 2 12 3, CacheOp.updateLastAccessed 1 4,
        CacheOp.insert 3 13 5]).cache = [1, 3] := by
  refine ⟨fun s k => ⟨rfl, rfl⟩, ?_, ?_, ?_⟩ <;> decide

/-! ## Quadtree LOD index, src/game/terrain/tree.rs

The region tests (`Region::intersects_box` over `f32` boxes) only gate which
subtrees the recursion enters; they are abstracted as Boolean oracles, and all
structural theorems are proved for every oracle.  `assert!(level <= MAX_LEVEL)`
in `Node::new` is modelled as `Except.error`; the recursion of
`set_level_in_region` is driven by an explicit fuel parameter (the Rust
recursion terminates on well-formed trees; results are only claimed for runs
that return `ok`). -/

/-- `Point3D<i32, WorldSpace>` with mathematical integers for `i32`. -/
structure P3 where
  x : Int
  y : Int
  z : Int
deriving DecidableEq

/-- `Box3D<i32, WorldSpace>`. -/
structure Box3 where
  min : P3
  max : P3
deriving DecidableEq

def MAX_LEVEL : Nat := 8

/-- `1 << MAX_LEVEL`. -/
def ROOT_LEVEL_SIZE : Int := 256

def MIN_Z : Int := -1

def MAX_Z : Int := 1

/-- Rust `i32` division truncates toward zero (here the divisor is positive). -/
def rustDiv (a b : Int) : Int := if 0 ≤ a then a / b else -((-a) / b)

/-- `euclid::Box3D::center`: `(min + max.to_vector()) / 2` componentwise in
`i32` arithmetic. -/
def Box3.center (b : Box3) : P3 :=
  { x := rustDiv (b.min.x + b.max.x) 2
    y := rustDiv (b.min.y + b.max.y) 2
    z := rustDiv (b.min.z + b.max.z) 2 }

/-- The quadtree node: bounds, level, optional children, and the transient
two-phase `remove_sub_nodes` mark. -/
inductive Node where
  | mk (bounds : Box3) (level : Nat) (sub_nodes : Option (List Node))
       (remove_sub_nodes : Bool)

def Node.bounds : Node → Box3
  | .mk b _ _ _ => b

def Node.level : Node → Nat
  | .mk _ l _ _ => l

def Node.sub_nodes : Node → Option (List Node)
  | .mk _ _ s _ => s

def Node.remove_sub_nodes : Node → Bool
  | .mk _ _ _ r => r

/-- `Node::new`: the `assert!(level <= MAX_LEVEL)` failure is an error. -/
def Node.new (bounds : Box3) (level : Nat) : Except Unit Node :=
  if level ≤ MAX_LEVEL then .ok (.mk bounds level none false) else .error ()

/-- The four children bounds built by `Node::subdivide`, in source order:
top-left, top-right, bottom-left, bottom-right. -/
def quadrantBounds (b : Box3) : List Box3 :=
  [ { min := b.min, max := { x := (Box3.center b).x, y := (Box3.center b).y, z := b.max.z } },
    { min := { x := (Box3.center b).x, y := b.min.y, z := b.min.z },
      max := { x := b.max.x, y := (Box3.center b).y, z := b.max.z } },
    { min := { x := b.min.x, y := (Box3.center b).y, z := b.min.z },
      max := { x := (Box3.center b).x, y := b.max.y, z := b.max.z } },
    { min := { x := (Box3.center b).x, y := (Box3.center b).y, z := b.min.z }, max := b.max } ]

/-- `Node::subdivide`: early return when children exist, else create the four
quadrant children at `level + 1` (each through `Node::new` and its assert). -/
def Node.subdivide : Node → Except Unit Node
  | .mk b l (some cs) rm => .ok (.mk b l (some cs) rm)
  | .mk b l none rm => do
    let cs ← (quadrantBounds b).mapM (fun qb => Node.new qb (l + 1))
    .ok (.mk b l (some cs) rm)

/-- `Node::set_level_in_region` with the region test abstracted as `rt` and an
explicit recursion fuel.  On intersection: at or above the target level the
node is marked for demotion; below it, the node is subdivided if childless,
the demotion mark is cleared and the call recurses into all children. -/
def Node.set_level_in_region (rt : Box3 → Bool) (level : Nat) :
    Nat → Node → Except Unit Node
  | 0, _ => .error ()
  | fuel + 1, .mk b l sub rm =>
    if rt b then
      if level ≤ l then .ok (.mk b l sub true)
      else do
        let n ← Node.subdivide (.mk b l sub rm)
        match n with
        | .mk b' l' (some cs) _ => do
          let cs' ← cs.mapM (Node.set_level_in_region rt level fuel)
          .ok (.mk b' l' (some cs') false)
        | .mk _ _ none _ => .error ()
    else .ok (.mk b l sub rm)

mutual

/-- `Node::rebuild_tree`: commit a pending demotion by dropping the children,
else recurse into existing children. -/
def Node.rebuild_tree : Node → Node
  | .mk b l sub rm =>
    if rm then .mk b l none false
    else
      match sub with
      | some cs => .mk b l (some (Node.rebuildList cs)) rm
      | none => .mk b l none rm

def Node.rebuildList : List Node → List Node
  | [] => []
  | c :: rest => c.rebuild_tree :: Node.rebuildList rest

end

/-- The per-root-tile map of the quadtree (`HashMap<Point2D, Node>`). -/
structure TreeT where
  sub_nodes : List ((Int × Int) × Node)

def TreeT.new : TreeT := { sub_nodes := [] }

/-- Bounds of a root tile anchored at `point`, as built by `Tree::add_node`. -/
def rootBounds (p : Int × Int) : Box3 :=
  { min := { x := p.1, y := p.2, z := MIN_Z }
    max := { x := p.1 + ROOT_LEVEL_SIZE, y := p.2 + ROOT_LEVEL_SIZE, z := MAX_Z } }

/-- `Tree::add_node`: insert a level-0 root node if the tile is absent. -/
def TreeT.add_node (t : TreeT) (p : Int × Int) : Except Unit TreeT :=
  if p ∈ keysA t.sub_nodes then .ok t
  else do
    let n ← Node.new (rootBounds p) 0
    .ok { sub_nodes := t.sub_nodes ++ [(p, n)] }

def round_down_to_multiple_of (n m : Int) : Int :=
  if 0 ≤ n then rustDiv n m * m else rustDiv (n - m + 1) m * m

def round_up_to_multiple_of (n m : Int) : Int :=
  if 0 ≤ n then rustDiv (n + m - 1) m * m else rustDiv n m * m

/-- The arithmetic range `(lo..hi).step_by(ROOT_LEVEL_SIZE)` for the aligned
bounds used by `ensure_node_in_region`. -/
def latticePoints (lo hi : Int) : List Int :=
  (List.range ((hi - lo) / ROOT_LEVEL_SIZE).toNat).map
    (fun i => lo + ROOT_LEVEL_SIZE * (i : Int))

/-- `Tree::ensure_node_in_region`.  The float bounding box of the region
(`Box2D::from_points(...).round_out().to_i32()`) is taken as the abstract
integer inputs `bbmin`/`bbmax`; `rt2 p` abstracts
`region.intersects_box(Box2D(point, point + ROOT_LEVEL_SIZE))`. -/
def TreeT.ensure_node_in_region (t : TreeT) (rt2 : (Int × Int) → Bool)
    (bbmin bbmax : Int × Int) : Except Unit TreeT :=
  let min_x := round_down_to_multiple_of bbmin.1 ROOT_LEVEL_SIZE
  let min_y := round_down_to_multiple_of bbmin.2 ROOT_LEVEL_SIZE
  let max_x0 := round_up_to_multiple_of bbmax.1 ROOT_LEVEL_SIZE
  let max_y0 := round_up_to_multiple_of bbmax.2 ROOT_LEVEL_SIZE
  let max_x := if min_x = max_x0 then max_x0 + ROOT_LEVEL_SIZE else max_x0
  let max_y := if min_y = max_y0 then max_y0 + ROOT_LEVEL_SIZE else max_y0
  let pts := (latticePoints min_x max_x).flatMap
    (fun x => (latticePoints min_y max_y).map (fun y => (x, y)))
  pts.foldlM
    (fun acc p =>
      if p ∈ keysA acc.sub_nodes then pure acc
      else if rt2 p then acc.add_node p else pure acc)
    t

/-- `Tree::set_level_in_region`: apply the node update to every root. -/
def TreeT.set_level_in_region (t : TreeT) (rt : Box3 → Bool) (level fuel : Nat) :
    Except Unit TreeT := do
  let l ← t.sub_nodes.mapM (fun p => do
    let n ← Node.set_level_in_region rt level fuel p.2
    pure (p.1, n))
  pure { sub_nodes := l }

/-- `Tree::rebuild_tree`: commit pending demotions on every root. -/
def TreeT.rebuild_tree (t : TreeT) : TreeT :=
  { sub_nodes := t.sub_nodes.map (fun p => (p.1, p.2.rebuild_tree)) }

/-- Trees reachable through the public mutating API, each region argument
abstracted as an oracle and each call required to succeed. -/
inductive TreeReachable : TreeT → Prop where
  | new : TreeReachable TreeT.new
  | ensure (t : TreeT) (rt2 : (Int × Int) → Bool) (bbmin bbmax : Int × Int) (t' : TreeT) :
      TreeReachable t → t.ensure_node_in_region rt2 bbmin bbmax = .ok t' →
      TreeReachable t'
  | setLevel (t : TreeT) (rt : Box3 → Bool) (level fuel : Nat) (t' : TreeT) :
      TreeReachable t → t.set_level_in_region rt level fuel = .ok t' →
      TreeReachable t'
  | rebuild (t : TreeT) : TreeReachable t → TreeReachable t.rebuild_tree

/-! ## Quadtree invariants -/

/-- Componentwise `min ≤ max`. -/
def Box3.wf (b : Box3) : Prop :=
  b.min.x ≤ b.max.x ∧ b.min.y ≤ b.max.y ∧ b.min.z ≤ b.max.z

/-- Membership of an integer point in the half-open 2D extent of a box. -/
def inExtent (b : Box3) (x y : Int) : Prop :=
  b.min.x ≤ x ∧ x < b.max.x ∧ b.min.y ≤ y ∧ y < b.max.y

instance (b : Box3) (x y : Int) : Decidable (inExtent b x y) := by
  unfold inExtent
  infer_instance

/-- The structural node invariant: well-formed bounds, level capped by
MAX_LEVEL, and either no children or exactly 4 children, one level deeper,
with the parent's vertical extent, whose 2D extents cover each 2D integer
point of the parent extent exactly once (and no point outside it). -/
inductive NodeWF : Node → Prop where
  | leaf (b : Box3) (l : Nat) (rm : Bool) :
      Box3.wf b → l ≤ MAX_LEVEL → NodeWF (.mk b l none rm)
  | branch (b : Box3) (l : Nat) (rm : Bool) (cs : List Node) :
      Box3.wf b → l ≤ MAX_LEVEL →
      cs.length = 4 →
      (∀ c ∈ cs, c.level = l + 1) →
      (∀ c ∈ cs, c.bounds.min.z = b.min.z ∧ c.bounds.max.z = b.max.z) →
      (∀ x y : Int, cs.countP (fun c => decide (inExtent c.bounds x y))
          = if inExtent b x y then 1 else 0) →
      (∀ c ∈ cs, NodeWF c) →
      NodeWF (.mk b l (some cs) rm)

/-- All roots of the tree satisfy the node invariant. -/
def TreeWF (t : TreeT) : Prop := ∀ p ∈ t.sub_nodes, NodeWF p.2

theorem rustDiv_two_bounds (a c : Int) (h : a ≤ c) :
    a ≤ rustDiv (a + c) 2 ∧ rustDiv (a + c) 2 ≤ c := by
  unfold rustDiv
  split <;> omega

theorem quadrant_mem_props (b : Box3) (hb : Box3.wf b) :
    ∀ qb ∈ quadrantBounds b, Box3.wf qb ∧ qb.min.z = b.min.z ∧ qb.max.z = b.max.z := by
  obtain ⟨hx, hy, hz⟩ := hb
  have hcx := rustDiv_two_bounds b.min.x b.max.x hx
  have hcy := rustDiv_two_bounds b.min.y b.max.y hy
  intro qb hqb
  simp only [quadrantBounds, List.mem_cons, List.not_mem_nil, or_false] at hqb
  rcases hqb with h1 | h2 | h3 | h4 <;> subst_vars <;>
    refine ⟨⟨?_, ?_, ?_⟩, rfl, rfl⟩ <;> simp only [Box3.center] <;> omega

theorem quadrant_partition (b : Box3) (hb : Box3.wf b) (x y : Int) :
    ((quadrantBounds b).countP (fun qb => decide (inExtent qb x y)))
      = if inExtent b x y then 1 else 0 := by
  obtain ⟨hx, hy, hz⟩ := hb
  have hcx := rustDiv_two_bounds b.min.x b.max.x hx
  have hcy := rustDiv_two_bounds b.min.y b.max.y hy
  simp only [quadrantBounds, List.countP_cons, List.countP_nil, decide_eq_true_eq]
  unfold inExtent
  simp only [Box3.center]
  split_ifs <;> omega

/-! ### Basic facts about `subdivide`, `set_level_in_region`, `rebuild_tree` -/

theorem mapM_ok_forall₂ {α β : Type} (f : α → Except Unit β) :
    ∀ (l : List α) (l' : List β), l.mapM f = .ok l' →
      List.Forall₂ (fun a b => f a = .ok b) l l' := by
  intro l
  induction l with
  | nil =>
    intro l' h
    simp only [List.mapM_nil, pure, Except.pure] at h
    cases h
    constructor
  | cons a t ih =>
    intro l' h
    rw [List.mapM_cons] at h
    cases hfa : f a with
    | error e =>
      rw [hfa] at h
      simp [Bind.bind, Except.bind] at h
    | ok b =>
      rw [hfa] at h
      simp only [Bind.bind, Except.bind] at h
      cases hft : t.mapM f with
      | error e =>
        rw [hft] at h
        simp [Except.bind] at h
      | ok bs =>
        rw [hft] at h
        simp only [pure, Except.pure, Except.ok.injEq] at h
        cases h
        exact List.Forall₂.cons hfa (ih bs hft)

theorem forall₂_mem_right {α β : Type} {R : α → β → Prop} :
    ∀ {l : List α} {l' : List β}, List.Forall₂ R l l' → ∀ b ∈ l', ∃ a ∈ l, R a b := by
  intro l l' h
  induction h with
  | nil => simp
  | cons hab hrest ih =>
    intro b hb
    rcases List.mem_cons.1 hb with he | hm
    · exact ⟨_, List.mem_cons_self _ _, he ▸ hab⟩
    · obtain ⟨a, ha, hr⟩ := ih b hm
      exact ⟨a, List.mem_cons_of_mem _ ha, hr⟩

theorem forall₂_countP_eq {α β : Type} (p : α → Bool) (q : β → Bool) :
    ∀ {l : List α} {l' : List β},
      List.Forall₂ (fun a b => q b = p a) l l' → l'.countP q = l.countP p := by
  intro l l' h
  induction h with
  | nil => simp
  | cons hab _ ih => simp [List.countP_cons, hab, ih]

theorem subdivide_shape (n n' : Node) (h : Node.subdivide n = .ok n') :
    n'.bounds = n.bounds ∧ n'.level = n.level ∧ ∃ cs, n'.sub_nodes = some cs := by
  obtain ⟨b, l, sub, rm⟩ := n
  cases sub with
  | some cs =>
    simp only [Node.subdivide, Except.ok.injEq] at h
    cases h
    exact ⟨rfl, rfl, cs, rfl⟩
  | none =>
    simp only [Node.subdivide, Bind.bind, Except.bind] at h
    cases hm : (quadrantBounds b).mapM (fun qb => Node.new qb (l + 1)) with
    | error e =>
      rw [hm] at h
      simp at h
    | ok cs =>
      rw [hm] at h
      simp only [Except.ok.injEq] at h
      cases h
      exact ⟨rfl, rfl, cs, rfl⟩

theorem subdivide_leaf_ok (b : Box3) (l : Nat) (rm : Bool) (hl : l + 1 ≤ MAX_LEVEL) :
    Node.subdivide (.mk b l none rm)
      = .ok (.mk b l
          (some ((quadrantBounds b).map (fun qb => Node.mk qb (l + 1) none false))) rm) := by
  simp [Node.subdivide, Node.new, hl, quadrantBounds, List.mapM, List.mapM.loop,
    Bind.bind, Except.bind, pure, Except.pure]

theorem subdivide_leaf_err (b : Box3) (l : Nat) (rm : Bool) (hl : ¬ (l + 1 ≤ MAX_LEVEL)) :
    Node.subdivide (.mk b l none rm) = .error () := by
  simp [Node.subdivide, Node.new, hl, quadrantBounds, List.mapM, List.mapM.loop,
    Bind.bind, Except.bind]

theorem nodeWF_rm (b : Box3) (l : Nat) (sub : Option (List Node)) (rm rm' : Bool)
    (h : NodeWF (.mk b l sub rm)) : NodeWF (.mk b l sub rm') := by
  cases h with
  | leaf _ _ _ hb hl => exact .leaf _ _ _ hb hl
  | branch _ _ _ cs hb hl hlen hlev hz hpart hcwf =>
    exact .branch _ _ _ cs hb hl hlen hlev hz hpart hcwf

theorem set_level_shape (rt : Box3 → Bool) (level : Nat) :
    ∀ (fuel : Nat) (n n' : Node),
      Node.set_level_in_region rt level fuel n = .ok n' →
      n'.bounds = n.bounds ∧ n'.level = n.level := by
  intro fuel
  cases fuel with
  | zero =>
    intro n n' h
    simp [Node.set_level_in_region] at h
  | succ fuel =>
    intro n n' h
    obtain ⟨b, l, sub, rm⟩ := n
    simp only [Node.set_level_in_region] at h
    by_cases hrt : rt b
    · rw [if_pos hrt] at h
      by_cases hll : level ≤ l
      · rw [if_pos hll] at h
        simp only [Except.ok.injEq] at h
        cases h
        exact ⟨rfl, rfl⟩
      · rw [if_neg hll] at h
        simp only [Bind.bind, Except.bind] at h
        cases hsub : Node.subdivide (.mk b l sub rm) with
        | error e =>
          rw [hsub] at h
          simp at h
        | ok nmid =>
          rw [hsub] at h
          have hmid := subdivide_shape _ _ hsub
          obtain ⟨b2, l2, sub2, rm2⟩ := nmid
          obtain ⟨hb2, hl2, cs, hcs⟩ := hmid
          simp only [Node.sub_nodes] at hcs
          subst hcs
          simp only at h
          cases hm : cs.mapM (Node.set_level_in_region rt level fuel) with
          | error e =>
            rw [hm] at h
            simp [Except.bind] at h
          | ok cs' =>
            rw [hm] at h
            simp only [Except.bind, Except.ok.injEq] at h
            cases h
            simp only [Node.bounds, Node.level] at hb2 hl2 ⊢
            exact ⟨hb2, hl2⟩
    · rw [if_neg hrt] at h
      simp only [Except.ok.injEq] at h
      cases h
      exact ⟨rfl, rfl⟩

/-- Transport of the branch invariant through a successful `mapM` of
`set_level_in_region` over the children. -/
theorem branch_wf_of_mapM (rt : Box3 → Bool) (level fuel : Nat) (b : Box3) (l : Nat)
    (cs cs' : List Node)
    (hb : Box3.wf b) (hl : l ≤ MAX_LEVEL)
    (hlen : cs.length = 4)
    (hlev : ∀ c ∈ cs, c.level = l + 1)
    (hz : ∀ c ∈ cs, c.bounds.min.z = b.min.z ∧ c.bounds.max.z = b.max.z)
    (hpart : ∀ x y : Int, cs.countP (fun c => decide (inExtent c.bounds x y))
        = if inExtent b x y then 1 else 0)
    (hstep : ∀ c ∈ cs, ∀ c', Node.set_level_in_region rt level fuel c = .ok c' → NodeWF c')
    (hm : cs.mapM (Node.set_level_in_region rt level fuel) = .ok cs') :
    NodeWF (.mk b l (some cs') false) := by
  have hf2 := mapM_ok_forall₂ (Node.set_level_in_region rt level fuel) cs cs' hm
  have hshape : ∀ c' ∈ cs', ∃ c ∈ cs, c'.bounds = c.bounds ∧ c'.level = c.level ∧ NodeWF c' := by
    intro c' hc'
    obtain ⟨c, hc, hr⟩ := forall₂_mem_right hf2 c' hc'
    obtain ⟨hbb, hll⟩ := set_level_shape rt level fuel c c' hr
    exact ⟨c, hc, hbb, hll, hstep c hc c' hr⟩
  refine NodeWF.branch b l false cs' hb hl ?_ ?_ ?_ ?_ ?_
  · rw [← hf2.length_eq, hlen]
  · intro c' hc'
    obtain ⟨c, hc, _, hll, _⟩ := hshape c' hc'
    rw [hll]
    exact hlev c hc
  · intro c' hc'
    obtain ⟨c, hc, hbb, _, _⟩ := hshape c' hc'
    rw [hbb]
    exact hz c hc
  · intro x y
    rw [← hpart x y]
    apply forall₂_countP_eq
    apply hf2.imp
    intro a b' hr
    obtain ⟨hbb, _⟩ := set_level_shape rt level fuel a b' hr
    rw [hbb]
  · intro c' hc'
    obtain ⟨_, _, _, _, hwf⟩ := hshape c' hc'
    exact hwf

/-- `set_level_in_region` preserves the node invariant on every successful
run, for every region oracle, target level and fuel. -/
theorem set_level_wf (rt : Box3 → Bool) (level : Nat) :
    ∀ (fuel : Nat) (n n' : Node), NodeWF n →
      Node.set_level_in_region rt level fuel n = .ok n' → NodeWF n' := by
  intro fuel
  induction fuel with
  | zero =>
    intro n n' _ h
    simp [Node.set_level_in_region] at h
  | succ fuel ih =>
    intro n n' hwf h
    obtain ⟨b, l, sub, rm⟩ := n
    simp only [Node.set_level_in_region] at h
    by_cases hrt : rt b
    · rw [if_pos hrt] at h
      by_cases hll : level ≤ l
      · rw [if_pos hll] at h
        simp only [Except.ok.injEq] at h
        cases h
        exact nodeWF_rm b l sub rm true hwf
      · rw [if_neg hll] at h
        simp only [Bind.bind, Except.bind] at h
        cases sub with
        | some cs =>
          simp only [Node.subdivide] at h
          cases hm : cs.mapM (Node.set_level_in_region rt level fuel) with
          | error e =>
            rw [hm] at h
            simp [Except.bind] at h
          | ok cs' =>
            rw [hm] at h
            simp only [Except.bind, Except.ok.injEq] at h
            cases h
            cases hwf with
            | branch _ _ _ _ hb hlmax hlen hlev hz hpart hcwf =>
              exact branch_wf_of_mapM rt level fuel b l cs cs' hb hlmax hlen hlev hz
                hpart (fun c hc c' hr => ih c c' (hcwf c hc) hr) hm
        | none =>
          by_cases hmax : l + 1 ≤ MAX_LEVEL
          · rw [subdivide_leaf_ok b l rm hmax] at h
            simp only at h
            cases hm : ((quadrantBounds b).map
                (fun qb => Node.mk qb (l + 1) none false)).mapM
                (Node.set_level_in_region rt level fuel) with
            | error e =>
              rw [hm] at h
              simp [Except.bind] at h
            | ok cs' =>
              rw [hm] at h
              simp only [Except.bind, Except.ok.injEq] at h
              cases h
              have hb : Box3.wf b := by
                cases hwf with
                | leaf _ _ _ hb _ => exact hb
              have hlmax : l ≤ MAX_LEVEL := by omega
              refine branch_wf_of_mapM rt level fuel b l _ cs' hb hlmax ?_ ?_ ?_ ?_ ?_ hm
              · simp [quadrantBounds]
              · intro c hc
                obtain ⟨qb, _, he⟩ := List.mem_map.1 hc
                rw [← he]
                rfl
              · intro c hc
                obtain ⟨qb, hqb, he⟩ := List.mem_map.1 hc
                rw [← he]
                exact (quadrant_mem_props b hb qb hqb).2
              · intro x y
                rw [List.countP_map]
                have : ((fun c => decide (inExtent (Node.bounds c) x y)) ∘
                    (fun qb => Node.mk qb (l + 1) none false))
                    = fun qb => decide (inExtent qb x y) := rfl
                rw [this]
                exact quadrant_partition b hb x y
              · intro c hc c' hr
                obtain ⟨qb, hqb, he⟩ := List.mem_map.1 hc
                have hcwf : NodeWF c := by
                  rw [← he]
                  exact NodeWF.leaf qb (l + 1) false (quadrant_mem_props b hb qb hqb).1 hmax
                exact ih c c' hcwf hr
          · rw [subdivide_leaf_err b l rm hmax] at h
            simp at h
    · rw [if_neg hrt] at h
      simp only [Except.ok.injEq] at h
      cases h
      exact hwf

/-- Custom structural induction over the nested `Node` type. -/
theorem Node.strongInd (P : Node → Prop)
    (h : ∀ b l sub rm, (∀ cs, sub = some cs → ∀ c ∈ cs, P c) → P (.mk b l sub rm)) :
    ∀ n, P n := by
  intro n
  match n with
  | .mk b l sub rm =>
    apply h
    intro cs hcs c hc
    exact Node.strongInd P h c
termination_by n => sizeOf n
decreasing_by
  have h1 := List.sizeOf_lt_of_mem hc
  rw [hcs]
  simp only [Node.mk.sizeOf_spec, Option.some.sizeOf_spec]
  omega

theorem rebuildList_eq_map (cs : List Node) :
    Node.rebuildList cs = cs.map Node.rebuild_tree := by
  induction cs with
  | nil => rfl
  | cons c rest ih => simp [Node.rebuildList, ih]

theorem rebuild_shape (n : Node) :
    (Node.rebuild_tree n).bounds = n.bounds ∧ (Node.rebuild_tree n).level = n.level := by
  obtain ⟨b, l, sub, rm⟩ := n
  cases rm <;> cases sub <;>
    simp [Node.rebuild_tree, Node.bounds, Node.level]

/-- `rebuild_tree` preserves the node invariant. -/
theorem rebuild_wf : ∀ n : Node, NodeWF n → NodeWF n.rebuild_tree := by
  apply Node.strongInd (fun n => NodeWF n → NodeWF n.rebuild_tree)
  intro b l sub rm ih hwf
  cases rm with
  | true =>
    have hre : Node.rebuild_tree (.mk b l sub true) = .mk b l none false := by
      simp [Node.rebuild_tree]
    rw [hre]
    cases hwf with
    | leaf _ _ _ hb hl => exact .leaf b l false hb hl
    | branch _ _ _ cs hb hl _ _ _ _ _ => exact .leaf b l false hb hl
  | false =>
    cases sub with
    | none =>
      have hre : Node.rebuild_tree (.mk b l none false) = .mk b l none false := by
        simp [Node.rebuild_tree]
      rw [hre]
      cases hwf with
      | leaf _ _ _ hb hl => exact .leaf b l false hb hl
    | some cs =>
      have hre : Node.rebuild_tree (.mk b l (some cs) false)
          = .mk b l (some (cs.map Node.rebuild_tree)) false := by
        simp [Node.rebuild_tree, rebuildList_eq_map]
      rw [hre]
      cases hwf with
      | branch _ _ _ _ hb hl hlen hlev hz hpart hcwf =>
        refine NodeWF.branch b l false _ hb hl ?_ ?_ ?_ ?_ ?_
        · rw [List.length_map, hlen]
        · intro c' hc'
          obtain ⟨c, hc, he⟩ := List.mem_map.1 hc'
          rw [← he, (rebuild_shape c).2]
          exact hlev c hc
        · intro c' hc'
          obtain ⟨c, hc, he⟩ := List.mem_map.1 hc'
          rw [← he, (rebuild_shape c).1]
          exact hz c hc
        · intro x y
          rw [List.countP_map, ← hpart x y]
          apply List.countP_congr
          intro c hc
          simp only [Function.comp_apply, (rebuild_shape c).1]
        · intro c' hc'
          obtain ⟨c, hc, he⟩ := List.mem_map.1 hc'
          rw [← he]
          exact ih cs rfl c hc (hcwf c hc)

theorem add_node_wf (t : TreeT) (p : Int × Int) (t' : TreeT)
    (hwf : TreeWF t) (h : t.add_node p = .ok t') : TreeWF t' := by
  unfold TreeT.add_node at h
  by_cases hmem : p ∈ keysA t.sub_nodes
  · rw [if_pos hmem] at h
    simp only [Except.ok.injEq] at h
    cases h
    exact hwf
  · rw [if_neg hmem] at h
    have hn : Node.new (rootBounds p) 0 = .ok (.mk (rootBounds p) 0 none false) := by
      simp [Node.new, MAX_LEVEL]
    rw [hn] at h
    simp only [Bind.bind, Except.bind, Except.ok.injEq] at h
    cases h
    intro q hq
    simp only [List.mem_append, List.mem_singleton] at hq
    rcases hq with hold | hnew
    · exact hwf q hold
    · subst hnew
      refine NodeWF.leaf _ _ _ ⟨?_, ?_, ?_⟩ (by simp [MAX_LEVEL]) <;>
        simp [rootBounds, ROOT_LEVEL_SIZE, MIN_Z, MAX_Z]

theorem foldlM_preserve {α : Type} (P : TreeT → Prop) (f : TreeT → α → Except Unit TreeT)
    (hf : ∀ t a t', P t → f t a = .ok t' → P t') :
    ∀ (l : List α) (t t' : TreeT), P t → l.foldlM f t = .ok t' → P t' := by
  intro l
  induction l with
  | nil =>
    intro t t' hp h
    simp only [List.foldlM_nil, pure, Except.pure, Except.ok.injEq] at h
    cases h
    exact hp
  | cons a rest ih =>
    intro t t' hp h
    rw [List.foldlM_cons] at h
    cases hfa : f t a with
    | error e =>
      rw [hfa] at h
      simp [Bind.bind, Except.bind] at h
    | ok tm =>
      rw [hfa] at h
      simp only [Bind.bind, Except.bind] at h
      exact ih tm t' (hf t a tm hp hfa) h

theorem ensure_wf (t : TreeT) (rt2 : (Int × Int) → Bool) (bbmin bbmax : Int × Int)
    (t' : TreeT) (hwf : TreeWF t)
    (h : t.ensure_node_in_region rt2 bbmin bbmax = .ok t') : TreeWF t' := by
  have hstep : ∀ (s : TreeT) (p : Int × Int) (s' : TreeT), TreeWF s →
      (if p ∈ keysA s.sub_nodes then pure s
       else if rt2 p then s.add_node p else pure s) = .ok s' → TreeWF s' := by
    intro s p s' hs hstep
    by_cases hmem : p ∈ keysA s.sub_nodes
    · rw [if_pos hmem] at hstep
      simp only [pure, Except.pure, Except.ok.injEq] at hstep
      cases hstep
      exact hs
    · rw [if_neg hmem] at hstep
      by_cases hrt : rt2 p
      · rw [if_pos hrt] at hstep
        exact add_node_wf s p s' hs hstep
      · rw [if_neg hrt] at hstep
        simp only [pure, Except.pure, Except.ok.injEq] at hstep
        cases hstep
        exact hs
  exact foldlM_preserve TreeWF _ hstep _ t t' hwf h

theorem tree_set_level_wf (t : TreeT) (rt : Box3 → Bool) (level fuel : Nat) (t' : TreeT)
    (hwf : TreeWF t) (h : t.set_level_in_region rt level fuel = .ok t') : TreeWF t' := by
  unfold TreeT.set_level_in_region at h
  cases hm : t.sub_nodes.mapM (fun p => do
      let n ← Node.set_level_in_region rt level fuel p.2
      pure (p.1, n)) with
  | error e =>
    rw [hm] at h
    simp [Bind.bind, Except.bind] at h
  | ok l =>
    rw [hm] at h
    simp only [Bind.bind, Except.bind, pure, Except.pure, Except.ok.injEq] at h
    cases h
    intro q hq
    have hf2 := mapM_ok_forall₂ _ _ _ hm
    obtain ⟨pOld, hpOld, hr⟩ := forall₂_mem_right hf2 q hq
    cases hn : Node.set_level_in_region rt level fuel pOld.2 with
    | error e =>
      rw [hn] at hr
      simp [Bind.bind, Except.bind] at hr
    | ok n =>
      rw [hn] at hr
      simp only [Bind.bind, Except.bind, pure, Except.pure, Except.ok.injEq] at hr
      cases hr
      exact set_level_wf rt level fuel pOld.2 n (hwf pOld hpOld) hn

theorem tree_rebuild_wf (t : TreeT) (hwf : TreeWF t) : TreeWF t.rebuild_tree := by
  intro q hq
  unfold TreeT.rebuild_tree at hq
  simp only [List.mem_map] at hq
  obtain ⟨pOld, hpOld, he⟩ := hq
  rw [← he]
  exact rebuild_wf pOld.2 (hwf pOld hpOld)

/-- Every tree reachable through the public API satisfies the invariant. -/
theorem reachable_wf (t : TreeT) (h : TreeReachable t) : TreeWF t := by
  induction h with
  | new =>
    intro q hq
    simp [TreeT.new] at hq
  | ensure t rt2 bbmin bbmax t' _ hok ih => exact ensure_wf t rt2 bbmin bbmax t' ih hok
  | setLevel t rt level fuel t' _ hok ih => exact tree_set_level_wf t rt level fuel t' ih hok
  | rebuild t _ ih => exact tree_rebuild_wf t ih

/-- Levels bounded by MAX_LEVEL, recursively. -/
inductive NodeLevelsLE : Node → Prop where
  | mk (b : Box3) (l : Nat) (sub : Option (List Node)) (rm : Bool) :
      l ≤ MAX_LEVEL → (∀ cs, sub = some cs → ∀ c ∈ cs, NodeLevelsLE c) →
      NodeLevelsLE (.mk b l sub rm)

theorem nodeWF_levels : ∀ n : Node, NodeWF n → NodeLevelsLE n := by
  apply Node.strongInd (fun n => NodeWF n → NodeLevelsLE n)
  intro b l sub rm ih hwf
  cases hwf with
  | leaf _ _ _ hb hl =>
    exact .mk b l none rm hl (by simp)
  | branch _ _ _ cs hb hl hlen hlev hz hpart hcwf =>
    refine .mk b l (some cs) rm hl ?_
    intro cs' hcs' c hc
    cases hcs'
    exact ih cs rfl c hc (hcwf c hc)

/-! ## Claims C4 and C5 -/

/-- C4: for every quadtree reachable by any sequence of
`ensure_node_in_region`, `set_level_in_region` and `rebuild_tree` calls
(region tests quantified as arbitrary oracles), after `rebuild_tree` every
node has either no children or exactly 4 children, each child's level is its
parent's level plus 1, and the 4 children's 2D bounds partition the parent's
2D extent exactly — every integer point of the parent extent lies in exactly
one child and no point outside it lies in any — with the vertical extent
unchanged. -/
theorem C4_quadtree_rebuild_invariant (t : TreeT) (h : TreeReachable t) :
    TreeWF t.rebuild_tree :=
  reachable_wf t.rebuild_tree (TreeReachable.rebuild t h)

/-- The tree produced by `ensure_node_in_region` on the degenerate box at the
origin with an always-true region test: one level-0 root tile. -/
def treeW1 : TreeT :=
  { sub_nodes := [((0, 0), Node.mk (rootBounds (0, 0)) 0 none false)] }

/-- `treeW1` after `set_level_in_region` with target level 1: the root gains
its four quadrant children, each marked for demotion at level 1. -/
def treeW2 : TreeT :=
  { sub_nodes := [((0, 0),
      Node.mk (rootBounds (0, 0)) 0
        (some [
          Node.mk { min := { x := 0, y := 0, z := -1 },
                    max := { x := 128, y := 128, z := 1 } } 1 none true,
          Node.mk { min := { x := 128, y := 0, z := -1 },
                    max := { x := 256, y := 128, z := 1 } } 1 none true,
          Node.mk { min := { x := 0, y := 128, z := -1 },
                    max := { x := 128, y := 256, z := 1 } } 1 none true,
          Node.mk { min := { x := 128, y := 128, z := -1 },
                    max := { x := 256, y := 256, z := 1 } } 1 none true])
        false)] }

theorem treeW1_reachable : TreeReachable treeW1 :=
  TreeReachable.ensure TreeT.new (fun _ => true) (0, 0) (0, 0) treeW1
    TreeReachable.new (by rfl)

theorem treeW2_reachable : TreeReachable treeW2 :=
  TreeReachable.setLevel treeW1 (fun _ => true) 1 9 treeW2 treeW1_reachable (by rfl)

/-- Witness for C4: the invariant holds after rebuilding the concrete
two-level tree built by the operations above. -/
theorem C4_quadtree_rebuild_invariant_witness : TreeWF treeW2.rebuild_tree :=
  C4_quadtree_rebuild_invariant treeW2 treeW2_reachable

/-- C5: no node of a reachable tree has a level above MAX_LEVEL; a childless
node at MAX_LEVEL is never given children by `set_level_in_region`: for any
target level a successful call leaves it childless (marked for demotion at
most), and for a target beyond MAX_LEVEL with an intersecting region the call
fails on the `Node::new` assertion before attaching any child. -/
theorem C5_max_level_guard :
    (∀ t : TreeT, TreeReachable t → ∀ p ∈ t.sub_nodes, NodeLevelsLE p.2)
    ∧ (∀ (b : Box3) (rm : Bool) (rt : Box3 → Bool) (target fuel : Nat) (n' : Node),
        Node.set_level_in_region rt target fuel (.mk b MAX_LEVEL none rm) = .ok n' →
        n'.sub_nodes = none)
    ∧ (∀ (b : Box3) (rm : Bool) (rt : Box3 → Bool) (target fuel : Nat),
        rt b = true → MAX_LEVEL < target →
        Node.set_level_in_region rt target (fuel + 1) (.mk b MAX_LEVEL none rm)
          = .error ()) := by
  refine ⟨?_, ?_, ?_⟩
  · intro t hreach p hp
    exact nodeWF_levels p.2 (reachable_wf t hreach p hp)
  · intro b rm rt target fuel n' h
    cases fuel with
    | zero => simp [Node.set_level_in_region] at h
    | succ fuel =>
      simp only [Node.set_level_in_region] at h
      by_cases hrt : rt b
      · rw [if_pos hrt] at h
        by_cases htl : target ≤ MAX_LEVEL
        · rw [if_pos htl] at h
          simp only [Except.ok.injEq] at h
          cases h
          rfl
        · rw [if_neg htl] at h
          simp only [Bind.bind, Except.bind] at h
          rw [subdivide_leaf_err b MAX_LEVEL rm (by omega)] at h
          simp at h
      · rw [if_neg hrt] at h
        simp only [Except.ok.injEq] at h
        cases h
        rfl
  · intro b rm rt target fuel hrt htar
    simp only [Node.set_level_in_region]
    rw [if_pos hrt, if_neg (by omega : ¬ target ≤ MAX_LEVEL)]
    simp only [Bind.bind, Except.bind]
    rw [subdivide_leaf_err b MAX_LEVEL rm (by omega)]

/-- Witness for C5: levels of the concrete reachable tree are in bounds; a
node at MAX_LEVEL stays childless under a target within the cap and errors
under a target beyond the cap. -/
theorem C5_max_level_guard_witness :
    (∀ p ∈ treeW1.sub_nodes, NodeLevelsLE p.2)
    ∧ (Node.mk (rootBounds (0, 0)) MAX_LEVEL none true).sub_nodes = none
    ∧ Node.set_level_in_region (fun _ => true) 9 1
        (.mk (rootBounds (0, 0)) MAX_LEVEL none false) = .error () := by
  refine ⟨?_, ?_, ?_⟩
  · exact C5_max_level_guard.1 treeW1 treeW1_reachable
  · exact C5_max_level_guard.2.1 (rootBounds (0, 0)) false (fun _ => true) 3 1 _ (by rfl)
  · exact C5_max_level_guard.2.2 (rootBounds (0, 0)) false (fun _ => true) 9 0 rfl
      (by simp [MAX_LEVEL])

/-! ## Task pipeline over the two caches, src/game/terrain/mod.rs

GPU buffers are opaque: only their presence is modelled (`Option Unit`).
The `try_write` spin loops (`loop { if lock unavailable continue ... }`)
always acquire eventually; in this single-threaded embedding they are an
immediate acquisition.  `u32` arithmetic uses Rust release-mode semantics:
wrapping subtraction and shift amounts masked by the bit width. -/

/-- `ChunkCacheKey`: `(bounds, level)`. -/
structure ChunkCacheKey where
  bounds : Box3
  level : Nat
deriving DecidableEq

/-- u32 wrapping subtraction (release mode), for `b ≤ 2^32`. -/
def subU32 (a b : Nat) : Nat := (a + 2 ^ 32 - b) % 2 ^ 32

/-- u32 left shift: Rust release mode masks the shift amount by the bit
width. -/
def shlU32 (a k : Nat) : Nat := (a <<< (k % 32)) % 2 ^ 32

/-- The voxel-count argument `size3(32, 32, 1 << (key.level - 2))` of
`generate_chunk`, computed in u32 arithmetic. -/
def generateChunkVoxelCount (level : Nat) : Nat × Nat × Nat :=
  (32, 32, shlU32 1 (subU32 level 2))

/-- The `Chunk` record; buffers are opaque, only presence is modelled. -/
structure Chunk where
  bounds : Box3
  level : Nat
  voxel_count : Nat × Nat × Nat
  voxel_buffer : Option Unit
  triangle_buffer : Option Unit
deriving DecidableEq

/-- `Chunk::new`. -/
def Chunk.new (bounds : Box3) (level : Nat) (voxel_count : Nat × Nat × Nat) : Chunk :=
  { bounds := bounds, level := level, voxel_count := voxel_count,
    voxel_buffer := none, triangle_buffer := none }

/-- `Chunk::generate_voxel`: the GPU dispatch that creates the voxel buffer. -/
def Chunk.generate_voxel (c : Chunk) : Chunk := { c with voxel_buffer := some () }

/-- `Chunk::generate_triangle`: creates the triangle buffer. -/
def Chunk.generate_triangle (c : Chunk) : Chunk := { c with triangle_buffer := some () }

/-- `Chunk::clear_triangle_buffer`. -/
def Chunk.clear_triangle_buffer (c : Chunk) : Chunk := { c with triangle_buffer := none }

/-- The `ChunkMesh` record; only the presence of the render bundle matters to
the handlers. -/
structure ChunkMesh where
  render_bundle : Option Unit
deriving DecidableEq

/-- LOD-mismatch stride factors carried by `StitchMesh`. -/
structure StitchStride where
  min_x : Nat
  max_x : Nat
  min_y : Nat
  max_y : Nat
deriving DecidableEq

/-- The pipeline task union `TerrainTask` (keeping the source's spelling of
`GenerateMeshResouces`). -/
inductive TerrainTask where
  | GenerateChunk (key : ChunkCacheKey)
  | WriteChunk (key : ChunkCacheKey) (chunk : Chunk)
  | InvalidateTriangle
  | RegenerateTriangle (key : ChunkCacheKey)
  | GenerateMesh (key : ChunkCacheKey)
  | WriteMesh (key : ChunkCacheKey) (mesh : ChunkMesh)
  | GenerateMeshResouces (key : ChunkCacheKey)
  | StitchMesh (key : ChunkCacheKey) (stride : StitchStride)
deriving DecidableEq

/-- The cache-bearing part of `TerrainData` read and written by the
handlers. -/
structure TerrainData where
  chunk_cache : Cache ChunkCacheKey Chunk
  mesh_cache : Cache ChunkCacheKey ChunkMesh

/-- `TerrainData::generate_chunk`: consult the mesh cache, then the chunk
cache; only when both miss, build a fresh chunk and submit density generation
plus triangulation to the backend.  Result: (follow-up task, state, whether a
backend submission was performed).  The function takes only read locks, so
the state is returned unchanged on every path. -/
def TerrainData.generate_chunk (s : TerrainData) (key : ChunkCacheKey) :
    Option TerrainTask × TerrainData × Bool :=
  match s.mesh_cache.get key with
  | some mesh =>
    if mesh.render_bundle.isNone then (some (.GenerateMeshResouces key), s, false)
    else (none, s, false)
  | none =>
    match s.chunk_cache.get key with
    | some chunk =>
      if chunk.triangle_buffer.isNone then (some (.RegenerateTriangle key), s, false)
      else (some (.GenerateMesh key), s, false)
    | none =>
      (some (.WriteChunk key
        (((Chunk.new key.bounds key.level
            (generateChunkVoxelCount key.level)).generate_voxel).generate_triangle)),
       s, true)

/-- `TerrainData::write_chunk`: insert the chunk (the spin on `try_write`
acquires), continue with `GenerateMesh`. -/
def TerrainData.write_chunk (s : TerrainData) (key : ChunkCacheKey) (chunk : Chunk)
    (now : Nat) : Option TerrainTask × TerrainData :=
  (some (.GenerateMesh key),
   { s with chunk_cache := s.chunk_cache.insert key chunk now })

/-- `TerrainData::write_mesh`: insert the mesh, continue with
`GenerateMeshResouces`. -/
def TerrainData.write_mesh (s : TerrainData) (key : ChunkCacheKey) (mesh : ChunkMesh)
    (now : Nat) : Option TerrainTask × TerrainData :=
  (some (.GenerateMeshResouces key),
   { s with mesh_cache := s.mesh_cache.insert key mesh now })

/-- `TerrainData::generate_mesh_resources`: when the mesh is cached, build its
render bundle in place and finish; otherwise fall back to `GenerateMesh`. -/
def TerrainData.generate_mesh_resources (s : TerrainData) (key : ChunkCacheKey) :
    Option TerrainTask × TerrainData :=
  match s.mesh_cache.get_mut key with
  | some _ =>
    (none, { s with mesh_cache :=
      s.mesh_cache.modifyValue key (fun m => { m with render_bundle := some () }) })
  | none => (some (.GenerateMesh key), s)

/-- `TerrainData::invalidate_triangle`: drop the triangle buffer of every
cached chunk and clear the mesh cache entirely; no follow-up task. -/
def TerrainData.invalidate_triangle (s : TerrainData) :
    Option TerrainTask × TerrainData :=
  (none,
   { chunk_cache := { s.chunk_cache with
       cache := s.chunk_cache.cache.map (fun p => (p.1, p.2.clear_triangle_buffer)) },
     mesh_cache := s.mesh_cache.clear })

/-- The `(bounds, level)` key of a node, as formed in `render`. -/
def nodeKey (n : Node) : ChunkCacheKey := { bounds := n.bounds, level := n.level }

/-- The stack loop of `TerrainData::render`, modelled at the key level: it
yields exactly the keys for which a bundle is pushed.  `rt` abstracts the
per-node region test; `fuel` bounds the loop (the Rust loop terminates since
the tree is finite); the Vec stack popped from its end is modelled as a list
popped from its head, with children therefore visited in sibling-reversed
order, which does not affect the key set. -/
def renderLoop (mc : Cache ChunkCacheKey ChunkMesh) (rt : Box3 → Bool) :
    Nat → List Node → List ChunkCacheKey → List ChunkCacheKey
  | 0, _, acc => acc
  | _ + 1, [], acc => acc
  | fuel + 1, n :: stack, acc =>
    match n.sub_nodes with
    | none =>
      match mc.get (nodeKey n) with
      | some mesh =>
        if mesh.render_bundle.isSome then
          renderLoop mc rt fuel stack (acc ++ [nodeKey n])
        else renderLoop mc rt fuel stack acc
      | none => renderLoop mc rt fuel stack acc
    | some cs =>
      if (cs.filter (fun c => rt c.bounds)).all (fun c => c.sub_nodes.isNone) then
        if (cs.filter (fun c => rt c.bounds)).any (fun c =>
            match mc.get (nodeKey c) with
            | some mesh => mesh.render_bundle.isNone
            | none => true) then
          match mc.get (nodeKey n) with
          | some mesh =>
            if mesh.render_bundle.isSome then
              renderLoop mc rt fuel stack (acc ++ [nodeKey n])
            else renderLoop mc rt fuel stack acc
          | none => renderLoop mc rt fuel stack acc
        else renderLoop mc rt fuel ((cs.filter (fun c => rt c.bounds)) ++ stack) acc
      else renderLoop mc rt fuel ((cs.filter (fun c => rt c.bounds)) ++ stack) acc

/-- `TerrainData::render`: roots intersecting the regions seed the stack. -/
def TerrainData.render (s : TerrainData) (rt : Box3 → Bool) (roots : List Node)
    (fuel : Nat) : List ChunkCacheKey :=
  renderLoop s.mesh_cache rt fuel (roots.filter (fun n => rt n.bounds)) []

/-! ## Claim C3 -/

/-- C3: when the mesh cache holds the key with a render resource,
`generate_chunk` returns no follow-up task and leaves both caches (the whole
state) unchanged, so re-running it is a no-op; and it performs a backend
submission only when the mesh cache misses and either the chunk cache misses
or the cached chunk has no triangle data (the submission branch in the code
requires both caches to miss, which implies the disjunction). -/
theorem C3_generate_chunk_idempotent :
    (∀ (s : TerrainData) (key : ChunkCacheKey) (mesh : ChunkMesh),
      s.mesh_cache.get key = some mesh → mesh.render_bundle.isSome = true →
      s.generate_chunk key = (none, s, false))
    ∧ (∀ (s : TerrainData) (key : ChunkCacheKey),
      (s.generate_chunk key).2.2 = true →
      s.mesh_cache.get key = none ∧
        (s.chunk_cache.get key = none ∨
          ∃ chunk, s.chunk_cache.get key = some chunk ∧ chunk.triangle_buffer = none)) := by
  constructor
  · intro s key mesh hm hrb
    have hn : mesh.render_bundle.isNone = false := by
      cases hrbv : mesh.render_bundle with
      | none =>
        rw [hrbv] at hrb
        simp at hrb
      | some u => simp
    simp only [TerrainData.generate_chunk, hm, hn]
    simp
  · intro s key h
    cases hm : s.mesh_cache.get key with
    | some mesh =>
      simp only [TerrainData.generate_chunk, hm] at h
      by_cases hrb : mesh.render_bundle.isNone = true
      · rw [if_pos hrb] at h
        simp at h
      · rw [if_neg hrb] at h
        simp at h
    | none =>
      cases hc : s.chunk_cache.get key with
      | some chunk =>
        simp only [TerrainData.generate_chunk, hm, hc] at h
        by_cases htb : chunk.triangle_buffer.isNone = true
        · rw [if_pos htb] at h
          simp at h
        · rw [if_neg htb] at h
          simp at h
      | none =>
        exact ⟨rfl, Or.inl rfl⟩

/-- Empty pipeline state with the capacities of `TerrainData::new`. -/
def sEmpty : TerrainData :=
  { chunk_cache := Cache.new ChunkCacheKey Chunk 128,
    mesh_cache := Cache.new ChunkCacheKey ChunkMesh 256 }

/-- A level-3 key at the origin root tile. -/
def keyL3 : ChunkCacheKey := { bounds := rootBounds (0, 0), level := 3 }

/-- Witness for C3: on a state whose mesh cache holds `keyL3` with a render
bundle, `generate_chunk` is a no-op; and on the empty state (where it does
submit) both caches miss. -/
theorem C3_generate_chunk_idempotent_witness :
    TerrainData.generate_chunk
        { sEmpty with mesh_cache :=
            sEmpty.mesh_cache.insert keyL3 { render_bundle := some () } 1 } keyL3
      = (none,
         { sEmpty with mesh_cache :=
             sEmpty.mesh_cache.insert keyL3 { render_bundle := some () } 1 },
         false)
    ∧ (TerrainData.generate_chunk sEmpty keyL3).2.2 = true
    ∧ sEmpty.mesh_cache.get keyL3 = none
    ∧ (sEmpty.chunk_cache.get keyL3 = none ∨
        ∃ chunk, sEmpty.chunk_cache.get keyL3 = some chunk ∧
          chunk.triangle_buffer = none) := by
  refine ⟨?_, by rfl, ?_, ?_⟩
  · exact C3_generate_chunk_idempotent.1 _ keyL3 { render_bundle := some () }
      (by rfl) (by rfl)
  · exact (C3_generate_chunk_idempotent.2 sEmpty keyL3 (by rfl)).1
  · exact (C3_generate_chunk_idempotent.2 sEmpty keyL3 (by rfl)).2

/-! ## Claim C6 -/

/-- C6 refutation at level 0, a level the pipeline can receive (level-0 root
leaves are pushed by `update_terrain`): the chunk built on a double cache
miss has z voxel count `2^30` — the u32 wrap of `level - 2` is masked to a
shift by 30 — which is not `2^(level-2)` with `level-2` computed in unsigned
arithmetic, i.e. `2^(2^32 - 2)` (and a debug build panics on the
subtraction overflow). -/
theorem C6_voxel_count_counterexample :
    (TerrainData.generate_chunk sEmpty { bounds := rootBounds (0, 0), level := 0 }).1
      = some (.WriteChunk { bounds := rootBounds (0, 0), level := 0 }
          { bounds := rootBounds (0, 0), level := 0,
            voxel_count := (32, 32, 2 ^ 30),
            voxel_buffer := some (), triangle_buffer := some () })
    ∧ (2 : Nat) ^ 30 ≠ 2 ^ (subU32 0 2) := by
  constructor
  · rfl
  · have hsub : subU32 0 2 = 2 ^ 32 - 2 := by
      unfold subU32
      norm_num
    rw [hsub]
    have hlt : (2 : Nat) ^ 30 < 2 ^ (2 ^ 32 - 2) :=
      Nat.pow_lt_pow_right (by norm_num) (by norm_num)
    exact ne_of_lt hlt

/-- C6 amended: on a double cache miss the constructed chunk has voxel count
exactly `32 × 32 × 2^(level-2)` for every level with `2 ≤ level ≤ 33` (which
covers all quadtree levels from 2 to MAX_LEVEL); at levels 0 and 1 the
unsigned wrap of `level - 2` followed by Rust's shift masking yields `2^30`
and `2^31` respectively. -/
theorem C6_voxel_count_amended :
    (∀ (s : TerrainData) (key : ChunkCacheKey) (chunk : Chunk),
      2 ≤ key.level → key.level ≤ 33 →
      (s.generate_chunk key).1 = some (.WriteChunk key chunk) →
      chunk.voxel_count = (32, 32, 2 ^ (key.level - 2)))
    ∧ generateChunkVoxelCount 0 = (32, 32, 2 ^ 30)
    ∧ generateChunkVoxelCount 1 = (32, 32, 2 ^ 31) := by
  refine ⟨?_, by rfl, by rfl⟩
  intro s key chunk h2 h33 h
  cases hm : s.mesh_cache.get key with
  | some mesh =>
    simp only [TerrainData.generate_chunk, hm] at h
    by_cases hrb : mesh.render_bundle.isNone = true
    · rw [if_pos hrb] at h
      simp at h
    · rw [if_neg hrb] at h
      simp at h
  | none =>
    cases hc : s.chunk_cache.get key with
    | some c =>
      simp only [TerrainData.generate_chunk, hm, hc] at h
      by_cases htb : c.triangle_buffer.isNone = true
      · rw [if_pos htb] at h
        simp at h
      · rw [if_neg htb] at h
        simp at h
    | none =>
      simp only [TerrainData.generate_chunk, hm, hc, Option.some.injEq,
        TerrainTask.WriteChunk.injEq] at h
      have hchunk := h.2
      rw [← hchunk]
      show generateChunkVoxelCount key.level = (32, 32, 2 ^ (key.level - 2))
      unfold generateChunkVoxelCount shlU32 subU32
      have hs : (key.level + 2 ^ 32 - 2) % 2 ^ 32 = key.level - 2 := by omega
      rw [hs]
      have hm32 : (key.level - 2) % 32 = key.level - 2 := by omega
      rw [hm32, Nat.shiftLeft_eq, one_mul]
      have hlt : 2 ^ (key.level - 2) < 2 ^ 32 :=
        Nat.pow_lt_pow_right (by norm_num) (by omega)
      rw [Nat.mod_eq_of_lt hlt]

/-- Witness for C6 amended at level 3: the handler on the empty state submits
a chunk with voxel count `(32, 32, 2)`. -/
theorem C6_voxel_count_amended_witness :
    (TerrainData.generate_chunk sEmpty keyL3).1
      = some (.WriteChunk keyL3
          { bounds := keyL3.bounds, level := 3, voxel_count := (32, 32, 2),
            voxel_buffer := some (), triangle_buffer := some () })
    ∧ ({ bounds := keyL3.bounds, level := 3, voxel_count := (32, 32, 2),
         voxel_buffer := some (), triangle_buffer := some () } : Chunk).voxel_count
        = (32, 32, 2 ^ (keyL3.level - 2)) := by
  refine ⟨by rfl, ?_⟩
  exact C6_voxel_count_amended.1 sEmpty keyL3 _ (by decide) (by decide) (by rfl)

/-! ## Claim C9 -/

/-- Pipeline work that can land between an invalidation and a render:
`WriteMesh` completions and `GenerateMeshResouces` completions. -/
inductive PostOp where
  | writeMesh (key : ChunkCacheKey) (mesh : ChunkMesh) (now : Nat)
  | genRes (key : ChunkCacheKey)

/-- State effect of one post-invalidation completion. -/
def PostOp.apply (s : TerrainData) : PostOp → TerrainData
  | .writeMesh key mesh now => (s.write_mesh key mesh now).2
  | .genRes key => (s.generate_mesh_resources key).2

def applyPostOps (s : TerrainData) (ops : List PostOp) : TerrainData :=
  ops.foldl PostOp.apply s

/-- The keys inserted into the mesh cache by a list of completions. -/
def PostOp.writeKeys (ops : List PostOp) : List ChunkCacheKey :=
  ops.filterMap (fun op =>
    match op with
    | .writeMesh key _ _ => some key
    | .genRes _ => none)

theorem insert_with_priority_keys_subset {K V : Type} [DecidableEq K]
    (s : Cache K V) (k : K) (v : V) (t : Nat) :
    ∀ x ∈ keysA (s.insert_with_priority k v t).cache, x ∈ keysA s.cache ∨ x = k := by
  intro x hx
  unfold Cache.insert_with_priority at hx
  by_cases hover : s.max_size < (insertA s.cache k v).length
  · rw [if_pos hover] at hx
    cases hf : findOldest (pushDecrease s.last_accessed k t) with
    | none =>
      rw [hf] at hx
      exact (mem_keysA_insertA s.cache k x v).1 hx
    | some p =>
      rw [hf] at hx
      simp only at hx
      exact (mem_keysA_insertA s.cache k x v).1 ((mem_keysA_removeA _ _ _).1 hx).1
  · rw [if_neg hover] at hx
    exact (mem_keysA_insertA s.cache k x v).1 hx

theorem keysA_modifyValue {K V : Type} [DecidableEq K] (s : Cache K V) (k : K)
    (f : V → V) : keysA (s.modifyValue k f).cache = keysA s.cache := by
  unfold Cache.modifyValue
  simp only [keysA, List.map_map]
  apply List.map_congr_left
  intro p _
  simp only [Function.comp_apply]
  split <;> rfl

theorem postOps_mesh_keys (ops : List PostOp) :
    ∀ (s : TerrainData) (key : ChunkCacheKey),
      key ∈ keysA (applyPostOps s ops).mesh_cache.cache →
      key ∈ keysA s.mesh_cache.cache ∨ key ∈ PostOp.writeKeys ops := by
  induction ops with
  | nil =>
    intro s key h
    exact Or.inl h
  | cons op rest ih =>
    intro s key h
    have hstep := ih (PostOp.apply s op) key h
    rcases hstep with hmem | hrest
    · cases op with
      | writeMesh k m now =>
        simp only [PostOp.apply, TerrainData.write_mesh, Cache.insert] at hmem
        rcases insert_with_priority_keys_subset s.mesh_cache k m now key hmem with hold | he
        · exact Or.inl hold
        · refine Or.inr ?_
          subst he
          simp [PostOp.writeKeys, List.filterMap_cons]
      | genRes k =>
        simp only [PostOp.apply, TerrainData.generate_mesh_resources] at hmem
        cases hg : Cache.get_mut s.mesh_cache k with
        | some m =>
          rw [hg] at hmem
          simp only at hmem
          rw [keysA_modifyValue] at hmem
          exact Or.inl hmem
        | none =>
          rw [hg] at hmem
          exact Or.inl hmem
    · refine Or.inr ?_
      cases op with
      | writeMesh k m now => simp [PostOp.writeKeys, List.filterMap_cons] at hrest ⊢; tauto
      | genRes k => simpa [PostOp.writeKeys, List.filterMap_cons] using hrest

/-- Every key produced by the render stack loop was already accumulated or
has a mesh-cache entry. -/
theorem renderLoop_sound (mc : Cache ChunkCacheKey ChunkMesh) (rt : Box3 → Bool) :
    ∀ (fuel : Nat) (stack : List Node) (acc : List ChunkCacheKey)
      (key : ChunkCacheKey), key ∈ renderLoop mc rt fuel stack acc →
      key ∈ acc ∨ key ∈ keysA mc.cache := by
  intro fuel
  induction fuel with
  | zero =>
    intro stack acc key h
    simp only [renderLoop] at h
    exact Or.inl h
  | succ fuel ih =>
    intro stack acc key h
    cases stack with
    | nil =>
      simp only [renderLoop] at h
      exact Or.inl h
    | cons n rest =>
      have hpush : ∀ (acc' : List ChunkCacheKey) (kn : ChunkCacheKey),
          (∃ m, mc.get kn = some m) →
          key ∈ acc' ++ [kn] → key ∈ acc' ∨ key ∈ keysA mc.cache := by
        intro acc' kn hkn hmem
        rcases List.mem_append.1 hmem with ha | hb
        · exact Or.inl ha
        · obtain ⟨m, hget⟩ := hkn
          refine Or.inr ?_
          have : (lookupA mc.cache key).isSome = true := by
            simp only [List.mem_singleton] at hb
            subst hb
            simp [Cache.get] at hget
            simp [hget]
          exact (lookupA_isSome_iff mc.cache key).1 this
      simp only [renderLoop] at h
      cases hsub : n.sub_nodes with
      | none =>
        simp only [hsub] at h
        cases hg : mc.get (nodeKey n) with
        | some mesh =>
          simp only [hg] at h
          by_cases hrb : mesh.render_bundle.isSome = true
          · rw [if_pos hrb] at h
            rcases ih rest (acc ++ [nodeKey n]) key h with hacc | hmc
            · exact hpush acc (nodeKey n) ⟨mesh, hg⟩ hacc
            · exact Or.inr hmc
          · rw [if_neg hrb] at h
            exact ih rest acc key h
        | none =>
          simp only [hg] at h
          exact ih rest acc key h
      | some cs =>
        simp only [hsub] at h
        by_cases hall : (cs.filter (fun c => rt c.bounds)).all
            (fun c => c.sub_nodes.isNone) = true
        · rw [if_pos hall] at h
          by_cases hany : (cs.filter (fun c => rt c.bounds)).any (fun c =>
              match mc.get (nodeKey c) with
              | some mesh => mesh.render_bundle.isNone
              | none => true) = true
          · rw [if_pos hany] at h
            cases hg : mc.get (nodeKey n) with
            | some mesh =>
              simp only [hg] at h
              by_cases hrb : mesh.render_bundle.isSome = true
              · rw [if_pos hrb] at h
                rcases ih rest (acc ++ [nodeKey n]) key h with hacc | hmc
                · exact hpush acc (nodeKey n) ⟨mesh, hg⟩ hacc
                · exact Or.inr hmc
              · rw [if_neg hrb] at h
                exact ih rest acc key h
            | none =>
              simp only [hg] at h
              exact ih rest acc key h
          · rw [if_neg hany] at h
            exact ih _ acc key h
        · rw [if_neg hall] at h
          exact ih _ acc key h

/-- C9: `invalidate_triangle` returns no follow-up task; afterwards every
chunk remaining in the chunk cache has no triangle buffer and the mesh cache
is empty; consequently any render performed later — after any interleaving of
`write_mesh` and `generate_mesh_resources` completions but before chunk-level
regeneration — returns keys only of meshes inserted after the invalidation. -/
theorem C9_invalidate_clears_meshes :
    (∀ s : TerrainData, (s.invalidate_triangle).1 = none)
    ∧ (∀ s : TerrainData, ∀ p ∈ (s.invalidate_triangle).2.chunk_cache.cache,
        p.2.triangle_buffer = none)
    ∧ (∀ s : TerrainData, (s.invalidate_triangle).2.mesh_cache.cache = [])
    ∧ (∀ (s : TerrainData) (ops : List PostOp) (rt : Box3 → Bool)
        (roots : List Node) (fuel : Nat) (key : ChunkCacheKey),
        key ∈ (applyPostOps (s.invalidate_triangle).2 ops).render rt roots fuel →
        key ∈ PostOp.writeKeys ops) := by
  refine ⟨fun s => rfl, ?_, fun s => rfl, ?_⟩
  · intro s p hp
    simp only [TerrainData.invalidate_triangle, List.mem_map] at hp
    obtain ⟨q, _, he⟩ := hp
    rw [← he]
    rfl
  · intro s ops rt roots fuel key h
    unfold TerrainData.render at h
    rcases renderLoop_sound _ rt fuel _ [] key h with hacc | hmc
    · simp at hacc
    · rcases postOps_mesh_keys ops (s.invalidate_triangle).2 key hmc with hbase | hw
      · simp only [TerrainData.invalidate_triangle, Cache.clear, keysA] at hbase
        simp at hbase
      · exact hw

/-- Witness for C9: on a concrete state a mesh written after the invalidation
and given a render resource is the only rendered key, and it is among the
post-invalidation writes. -/
theorem C9_invalidate_clears_meshes_witness :
    (sEmpty.invalidate_triangle).1 = none
    ∧ (sEmpty.invalidate_triangle).2.mesh_cache.cache = []
    ∧ keyL3 ∈ (applyPostOps (sEmpty.invalidate_triangle).2
        [PostOp.writeMesh keyL3 { render_bundle := none } 1, PostOp.genRes keyL3]).render
        (fun _ => true) [Node.mk (rootBounds (0, 0)) 3 none false] 2
    ∧ keyL3 ∈ PostOp.writeKeys
        [PostOp.writeMesh keyL3 { render_bundle := none } 1, PostOp.genRes keyL3] := by
  refine ⟨rfl, rfl, by decide, ?_⟩
  exact C9_invalidate_clears_meshes.2.2.2 sEmpty
    [PostOp.writeMesh keyL3 { render_bundle := none } 1, PostOp.genRes keyL3]
    (fun _ => true) [Node.mk (rootBounds (0, 0)) 3 none false] 2 keyL3 (by decide)

/-! ## Mesh welding, src/game/mesh.rs

Vertex positions are an arbitrary type `P` (they are only stored and moved);
identifiers (`u64`) are `Nat`.  The `[_; 3]` arrays of `Triangle` appear as
six fields in corner order 0, 1, 2. -/

/-- `Triangle<T>`: three positions and three per-vertex identifiers. -/
structure TriangleM (P : Type) where
  p0 : P
  p1 : P
  p2 : P
  id0 : Nat
  id1 : Nat
  id2 : Nat
deriving DecidableEq

/-- In-progress state of `Mesh::from_triangles`: the running `index` counter,
the `id_to_index` hash map, and the `vertex`, `ids`, `faces` outputs. -/
structure WeldState (P : Type) where
  index : Nat
  id_to_index : List (Nat × Nat)
  vertex : List P
  ids : List Nat
  faces : List (Nat × Nat × Nat)

def WeldState.empty (P : Type) : WeldState P :=
  { index := 0, id_to_index := [], vertex := [], ids := [], faces := [] }

/-- `id_to_index.entry(x).or_insert_with(...)`: reuse the slot of a known
identifier, else assign slot `index`, incrementing it and pushing the corner
position and identifier. -/
def getOrInsert {P : Type} (st : WeldState P) (idv : Nat) (pos : P) :
    Nat × WeldState P :=
  match lookupA st.id_to_index idv with
  | some i => (i, st)
  | none =>
    (st.index,
     { index := st.index + 1,
       id_to_index := st.id_to_index ++ [(idv, st.index)],
       vertex := st.vertex ++ [pos],
       ids := st.ids ++ [idv],
       faces := st.faces })

/-- One triangle of the `from_triangles` loop: three corner lookups in corner
order, then push the face triple. -/
def processTriangle {P : Type} (st : WeldState P) (t : TriangleM P) : WeldState P :=
  let r0 := getOrInsert st t.id0 t.p0
  let r1 := getOrInsert r0.2 t.id1 t.p1
  let r2 := getOrInsert r1.2 t.id2 t.p2
  { r2.2 with faces := r2.2.faces ++ [(r0.1, r1.1, r2.1)] }

/-- `Mesh::from_triangles` (identifier/vertex/face part; normals are a later
separate pass). -/
def fromTriangles {P : Type} (ts : List (TriangleM P)) : WeldState P :=
  ts.foldl processTriangle (WeldState.empty P)

/-- The corner stream: identifier/position pairs in processing order. -/
def cornerStream {P : Type} (ts : List (TriangleM P)) : List (Nat × P) :=
  ts.flatMap (fun t => [(t.id0, t.p0), (t.id1, t.p1), (t.id2, t.p2)])

/-- First-seen-order deduplication of a list of identifiers. -/
def firstSeen (l : List Nat) : List Nat :=
  l.foldl (fun acc x => if x ∈ acc then acc else acc ++ [x]) []

/-- The position attached to the first occurrence of an identifier in the
corner stream. -/
def firstPos {P : Type} : List (Nat × P) → Nat → Option P
  | [], _ => none
  | q :: t, x => if q.1 = x then some q.2 else firstPos t x

/-- Index of the first occurrence of an identifier (its vertex slot). -/
def idxOf (x : Nat) : List Nat → Nat
  | [] => 0
  | y :: t => if y = x then 0 else idxOf x t + 1

theorem firstSeen_append_one (l : List Nat) (x : Nat) :
    firstSeen (l ++ [x])
      = if x ∈ firstSeen l then firstSeen l else firstSeen l ++ [x] := by
  unfold firstSeen
  rw [List.foldl_append]
  rfl

theorem firstPos_append_left {P : Type} (l1 l2 : List (Nat × P)) (x : Nat) (p : P)
    (h : firstPos l1 x = some p) : firstPos (l1 ++ l2) x = some p := by
  induction l1 with
  | nil => simp [firstPos] at h
  | cons q t ih =>
    simp only [firstPos, List.cons_append] at h ⊢
    by_cases hq : q.1 = x
    · rw [if_pos hq] at h ⊢
      exact h
    · rw [if_neg hq] at h ⊢
      exact ih h

theorem firstPos_append_right {P : Type} (l1 l2 : List (Nat × P)) (x : Nat)
    (h : firstPos l1 x = none) : firstPos (l1 ++ l2) x = firstPos l2 x := by
  induction l1 with
  | nil => simp
  | cons q t ih =>
    simp only [firstPos, List.cons_append] at h ⊢
    by_cases hq : q.1 = x
    · rw [if_pos hq] at h
      simp at h
    · rw [if_neg hq] at h ⊢
      exact ih h

theorem firstPos_isSome_iff {P : Type} (stream : List (Nat × P)) (x : Nat) :
    (∃ p, firstPos stream x = some p) ↔ x ∈ stream.map Prod.fst := by
  induction stream with
  | nil => simp [firstPos]
  | cons q t ih =>
    simp only [firstPos, List.map_cons, List.mem_cons]
    by_cases hq : q.1 = x
    · rw [if_pos hq]
      simp [hq]
    · rw [if_neg hq]
      rw [ih]
      constructor
      · exact Or.inr
      · rintro (he | hm)
        · exact absurd he.symm hq
        · exact hm

theorem mem_firstSeen (l : List Nat) (x : Nat) : x ∈ firstSeen l ↔ x ∈ l := by
  induction l using List.reverseRecOn with
  | nil => simp [firstSeen]
  | append_singleton t y ih =>
    rw [firstSeen_append_one]
    by_cases hy : y ∈ firstSeen t
    · rw [if_pos hy]
      simp only [List.mem_append, List.mem_singleton]
      rw [ih]
      constructor
      · exact Or.inl
      · rintro (hm | he)
        · exact hm
        · subst he
          exact ih.1 hy
    · rw [if_neg hy]
      simp only [List.mem_append, List.mem_singleton, ih]

theorem idxOf_append_left (x : Nat) (l l' : List Nat) (h : x ∈ l) :
    idxOf x (l ++ l') = idxOf x l := by
  induction l with
  | nil => simp at h
  | cons y t ih =>
    simp only [idxOf, List.cons_append]
    by_cases hy : y = x
    · rw [if_pos hy, if_pos hy]
    · rw [if_neg hy, if_neg hy]
      have hm : x ∈ t := by
        rcases List.mem_cons.1 h with he | hm
        · exact absurd he.symm hy
        · exact hm
      have h2 := ih hm
      simp only [List.append_eq] at *
      omega

theorem idxOf_append_self (x : Nat) (l : List Nat) (h : x ∉ l) :
    idxOf x (l ++ [x]) = l.length := by
  induction l with
  | nil => simp [idxOf]
  | cons y t ih =>
    simp only [List.mem_cons, not_or] at h
    have hy : ¬ y = x := fun he => h.1 he.symm
    simp only [idxOf, List.cons_append, if_neg hy, List.length_cons]
    have h2 := ih h.2
    simp only [List.append_eq] at *
    omega

theorem lookupA_append {K V : Type} [DecidableEq K] (l1 l2 : List (K × V)) (k : K) :
    lookupA (l1 ++ l2) k
      = match lookupA l1 k with
        | some v => some v
        | none => lookupA l2 k := by
  induction l1 with
  | nil => simp [lookupA]
  | cons q t ih =>
    obtain ⟨k', v'⟩ := q
    by_cases hk : k' = k
    · simp [lookupA, hk]
    · simp only [List.cons_append, lookupA, if_neg hk]
      exact ih

theorem get_append_left_my {α : Type} :
    ∀ (l l' : List α) (i : Nat) (hi : i < l.length) (h2 : i < (l ++ l').length),
      (l ++ l').get ⟨i, h2⟩ = l.get ⟨i, hi⟩ := by
  intro l
  induction l with
  | nil =>
    intro l' i hi h2
    simp at hi
  | cons a t ih =>
    intro l' i hi h2
    cases i with
    | zero => rfl
    | succ i =>
      simp only [List.cons_append, List.get_cons_succ]
      exact ih l' i (by simpa using hi) (by simpa using h2)

theorem get_append_last_my {α : Type} (l : List α) (a : α)
    (h : l.length < (l ++ [a]).length) :
    (l ++ [a]).get ⟨l.length, h⟩ = a := by
  induction l with
  | nil => rfl
  | cons b t ih =>
    simp only [List.cons_append, List.length_cons, List.get_cons_succ]
    exact ih (by simp)

/-- Invariant of the welding state with respect to the corner stream eaten so
far: index tracks the vertex count, identifiers are the first-seen
deduplication of the stream, the hash map sends each known identifier to its
slot, and each slot's vertex is the position of its identifier's first
occurrence. -/
structure CornerInv {P : Type} (stream : List (Nat × P)) (st : WeldState P) : Prop where
  hidx : st.index = st.vertex.length
  hlen : st.ids.length = st.vertex.length
  hnodup : st.ids.Nodup
  hfs : st.ids = firstSeen (stream.map Prod.fst)
  hmap : ∀ x, lookupA st.id_to_index x =
    if x ∈ st.ids then some (idxOf x st.ids) else none
  hvert : ∀ (i : Nat) (x : Nat), st.ids.get? i = some x →
    firstPos stream x = st.vertex.get? i

theorem firstPos_eq_none {P : Type} (stream : List (Nat × P)) (x : Nat)
    (h : x ∉ stream.map Prod.fst) : firstPos stream x = none := by
  cases hf : firstPos stream x with
  | none => rfl
  | some p => exact absurd ((firstPos_isSome_iff stream x).1 ⟨p, hf⟩) h

theorem getOrInsert_inv {P : Type} (stream : List (Nat × P)) (st : WeldState P)
    (idv : Nat) (pos : P) (h : CornerInv stream st) :
    CornerInv (stream ++ [(idv, pos)]) (getOrInsert st idv pos).2
    ∧ (getOrInsert st idv pos).1 = idxOf idv (getOrInsert st idv pos).2.ids
    ∧ idv ∈ (getOrInsert st idv pos).2.ids
    ∧ (getOrInsert st idv pos).2.faces = st.faces
    ∧ (∃ suf, (getOrInsert st idv pos).2.ids = st.ids ++ suf) := by
  obtain ⟨hidx, hlen, hnodup, hfs, hmap, hvert⟩ := h
  have hmapfst : (stream ++ [(idv, pos)]).map Prod.fst
      = stream.map Prod.fst ++ [idv] := by
    simp
  by_cases hmem : idv ∈ st.ids
  · have hlook : lookupA st.id_to_index idv = some (idxOf idv st.ids) := by
      rw [hmap idv, if_pos hmem]
    have hg : getOrInsert st idv pos = (idxOf idv st.ids, st) := by
      unfold getOrInsert
      rw [hlook]
    rw [hg]
    have hfs2 : st.ids = firstSeen ((stream ++ [(idv, pos)]).map Prod.fst) := by
      rw [hmapfst, firstSeen_append_one, if_pos (hfs ▸ hmem), ← hfs]
    refine ⟨⟨hidx, hlen, hnodup, hfs2, hmap, ?_⟩, rfl, hmem, rfl, ⟨[], by simp⟩⟩
    intro i x hq
    have hold := hvert i x hq
    have hib : i < st.ids.length := by
      rw [List.get?_eq_some] at hq
      obtain ⟨hb, _⟩ := hq
      exact hb
    have hvb : i < st.vertex.length := by omega
    cases hvg : st.vertex.get? i with
    | none =>
      rw [List.get?_eq_none] at hvg
      omega
    | some v =>
      rw [hvg] at hold
      exact firstPos_append_left stream [(idv, pos)] x v hold
  · have hlook : lookupA st.id_to_index idv = none := by
      rw [hmap idv, if_neg hmem]
    have hg : getOrInsert st idv pos
        = (st.index,
           { index := st.index + 1,
             id_to_index := st.id_to_index ++ [(idv, st.index)],
             vertex := st.vertex ++ [pos],
             ids := st.ids ++ [idv],
             faces := st.faces }) := by
      unfold getOrInsert
      rw [hlook]
    rw [hg]
    have hmemstream : idv ∉ stream.map Prod.fst := by
      intro hm
      exact hmem (hfs ▸ (mem_firstSeen (stream.map Prod.fst) idv).2 hm)
    have hidxnew : idxOf idv (st.ids ++ [idv]) = st.ids.length :=
      idxOf_append_self idv st.ids hmem
    refine ⟨⟨?_, ?_, ?_, ?_, ?_, ?_⟩, ?_, ?_, rfl, ⟨[idv], rfl⟩⟩
    · simp only [List.length_append, List.length_cons, List.length_nil]
      omega
    · simp only [List.length_append, List.length_cons, List.length_nil]
      omega
    · simp only [List.nodup_append, List.nodup_cons, List.nodup_nil]
      refine ⟨hnodup, by simp, ?_⟩
      intro a ha
      simp only [List.mem_singleton]
      intro he
      exact hmem (he ▸ ha)
    · rw [hmapfst, firstSeen_append_one, if_neg (hfs ▸ hmem), ← hfs]
    · intro x
      rw [lookupA_append]
      by_cases hx : x ∈ st.ids
      · rw [hmap x, if_pos hx]
        simp only
        rw [if_pos (List.mem_append.2 (Or.inl hx)), idxOf_append_left x st.ids [idv] hx]
      · rw [hmap x, if_neg hx]
        simp only
        by_cases hxe : x = idv
        · subst hxe
          simp only [lookupA, if_pos rfl]
          rw [if_pos (List.mem_append.2 (Or.inr (by simp)))]
          rw [hidxnew, hidx, hlen]
          simp
        · have hne : ¬ idv = x := fun he => hxe he.symm
          simp only [lookupA, if_neg hne]
          rw [if_neg ?_]
          intro hm
          rcases List.mem_append.1 hm with hm1 | hm2
          · exact hx hm1
          · simp only [List.mem_singleton] at hm2
            exact hxe hm2
    · intro i x hq
      by_cases hilt : i < st.ids.length
      · rw [List.get?_append hilt] at hq
        have hvlt : i < st.vertex.length := by omega
        rw [List.get?_append hvlt]
        have hold := hvert i x hq
        cases hvg : st.vertex.get? i with
        | none =>
          rw [List.get?_eq_none] at hvg
          omega
        | some v =>
          rw [hvg] at hold
          exact firstPos_append_left stream [(idv, pos)] x v hold
      · have hb : i < st.ids.length + 1 := by
          rw [List.get?_eq_some] at hq
          obtain ⟨hb, _⟩ := hq
          simpa using hb
        have hieq : i = st.ids.length := by omega
        subst hieq
        rw [List.get?_concat_length] at hq
        cases hq
        rw [hlen, List.get?_concat_length]
        rw [firstPos_append_right stream [(idv, pos)] idv
          (firstPos_eq_none stream idv hmemstream)]
        simp [firstPos]
    · simp only
      rw [hidxnew, hidx, hlen]
    · exact List.mem_append.2 (Or.inr (by simp))

theorem cornerStream_append_one {P : Type} (ts : List (TriangleM P)) (t : TriangleM P) :
    cornerStream (ts ++ [t])
      = cornerStream ts ++ [(t.id0, t.p0), (t.id1, t.p1), (t.id2, t.p2)] := by
  simp [cornerStream]

theorem corner_ids_mem {P : Type} (ts : List (TriangleM P)) (m : Nat) (tri : TriangleM P)
    (hm : ts.get? m = some tri) :
    tri.id0 ∈ (cornerStream ts).map Prod.fst
    ∧ tri.id1 ∈ (cornerStream ts).map Prod.fst
    ∧ tri.id2 ∈ (cornerStream ts).map Prod.fst := by
  have hmem : tri ∈ ts := by
    rw [List.get?_eq_some] at hm
    obtain ⟨hb, hget⟩ := hm
    exact hget ▸ List.get_mem ts m hb
  have hstream : ∀ c ∈ [(tri.id0, tri.p0), (tri.id1, tri.p1), (tri.id2, tri.p2)],
      c ∈ cornerStream ts := by
    intro c hc
    exact List.mem_flatMap.2 ⟨tri, hmem, hc⟩
  refine ⟨?_, ?_, ?_⟩
  · exact List.mem_map.2 ⟨(tri.id0, tri.p0), hstream _ (by simp), rfl⟩
  · exact List.mem_map.2 ⟨(tri.id1, tri.p1), hstream _ (by simp), rfl⟩
  · exact List.mem_map.2 ⟨(tri.id2, tri.p2), hstream _ (by simp), rfl⟩

theorem processTriangle_inv {P : Type} (ts : List (TriangleM P)) (t : TriangleM P)
    (st : WeldState P) (hc : CornerInv (cornerStream ts) st)
    (hflen : st.faces.length = ts.length)
    (hface : ∀ (m : Nat) (tri : TriangleM P), ts.get? m = some tri →
      st.faces.get? m
        = some (idxOf tri.id0 st.ids, idxOf tri.id1 st.ids, idxOf tri.id2 st.ids)) :
    CornerInv (cornerStream (ts ++ [t])) (processTriangle st t)
    ∧ (processTriangle st t).faces.length = (ts ++ [t]).length
    ∧ (∀ (m : Nat) (tri : TriangleM P), (ts ++ [t]).get? m = some tri →
        (processTriangle st t).faces.get? m
          = some (idxOf tri.id0 (processTriangle st t).ids,
              idxOf tri.id1 (processTriangle st t).ids,
              idxOf tri.id2 (processTriangle st t).ids)) := by
  obtain ⟨hc0, hi0, hmem0, hfaces0, suf0, hsuf0⟩ :=
    getOrInsert_inv (cornerStream ts) st t.id0 t.p0 hc
  obtain ⟨hc1, hi1, hmem1, hfaces1, suf1, hsuf1⟩ :=
    getOrInsert_inv _ (getOrInsert st t.id0 t.p0).2 t.id1 t.p1 hc0
  obtain ⟨hc2, hi2, hmem2, hfaces2, suf2, hsuf2⟩ :=
    getOrInsert_inv _ (getOrInsert (getOrInsert st t.id0 t.p0).2 t.id1 t.p1).2
      t.id2 t.p2 hc1
  have hstream : ((cornerStream ts ++ [(t.id0, t.p0)]) ++ [(t.id1, t.p1)])
      ++ [(t.id2, t.p2)] = cornerStream (ts ++ [t]) := by
    rw [cornerStream_append_one]
    simp
  rw [hstream] at hc2
  have hfacesAll : (getOrInsert (getOrInsert (getOrInsert st t.id0 t.p0).2
      t.id1 t.p1).2 t.id2 t.p2).2.faces = st.faces := by
    rw [hfaces2, hfaces1, hfaces0]
  have hids20 : (getOrInsert (getOrInsert (getOrInsert st t.id0 t.p0).2
      t.id1 t.p1).2 t.id2 t.p2).2.ids = st.ids ++ (suf0 ++ (suf1 ++ suf2)) := by
    rw [hsuf2, hsuf1, hsuf0]
    simp
  have hids21 : (getOrInsert (getOrInsert (getOrInsert st t.id0 t.p0).2
      t.id1 t.p1).2 t.id2 t.p2).2.ids
      = (getOrInsert st t.id0 t.p0).2.ids ++ (suf1 ++ suf2) := by
    rw [hsuf2, hsuf1]
    simp
  have hptfaces : (processTriangle st t).faces
      = st.faces
        ++ [((getOrInsert st t.id0 t.p0).1,
             (getOrInsert (getOrInsert st t.id0 t.p0).2 t.id1 t.p1).1,
             (getOrInsert (getOrInsert (getOrInsert st t.id0 t.p0).2
               t.id1 t.p1).2 t.id2 t.p2).1)] := by
    show (getOrInsert (getOrInsert (getOrInsert st t.id0 t.p0).2 t.id1 t.p1).2
        t.id2 t.p2).2.faces ++ _ = _
    rw [hfacesAll]
  have hptids : (processTriangle st t).ids
      = (getOrInsert (getOrInsert (getOrInsert st t.id0 t.p0).2 t.id1 t.p1).2
          t.id2 t.p2).2.ids := rfl
  refine ⟨⟨hc2.hidx, hc2.hlen, hc2.hnodup, hc2.hfs, hc2.hmap, hc2.hvert⟩, ?_, ?_⟩
  · rw [hptfaces]
    simp only [List.length_append, List.length_cons, List.length_nil, hflen]
  · intro m tri hm
    rw [hptfaces, hptids]
    have hmb : m < ts.length + 1 := by
      rw [List.get?_eq_some] at hm
      obtain ⟨hb, _⟩ := hm
      simpa using hb
    by_cases hmlt : m < ts.length
    · rw [List.get?_append hmlt] at hm
      have hflt : m < st.faces.length := by omega
      rw [List.get?_append hflt, hface m tri hm]
      obtain ⟨hid0m, hid1m, hid2m⟩ := corner_ids_mem ts m tri hm
      have h0 : tri.id0 ∈ st.ids := by
        rw [hc.hfs]
        exact (mem_firstSeen _ _).2 hid0m
      have h1 : tri.id1 ∈ st.ids := by
        rw [hc.hfs]
        exact (mem_firstSeen _ _).2 hid1m
      have h2 : tri.id2 ∈ st.ids := by
        rw [hc.hfs]
        exact (mem_firstSeen _ _).2 hid2m
      rw [hids20, idxOf_append_left _ _ _ h0, idxOf_append_left _ _ _ h1,
        idxOf_append_left _ _ _ h2]
    · have hmeq : m = ts.length := by omega
      subst hmeq
      rw [List.get?_concat_length] at hm
      cases hm
      have hfeq : st.faces.length = ts.length := hflen
      rw [show ts.length = st.faces.length from hfeq.symm, List.get?_concat_length]
      refine congrArg some (congrArg₂ Prod.mk ?_ (congrArg₂ Prod.mk ?_ ?_))
      · rw [hi0, hids21, idxOf_append_left _ _ _ hmem0]
      · rw [hi1, hsuf2, idxOf_append_left _ _ _ hmem1]
      · rw [hi2]

theorem fromTriangles_inv {P : Type} (ts : List (TriangleM P)) :
    CornerInv (cornerStream ts) (fromTriangles ts)
    ∧ (fromTriangles ts).faces.length = ts.length
    ∧ (∀ (m : Nat) (tri : TriangleM P), ts.get? m = some tri →
        (fromTriangles ts).faces.get? m
          = some (idxOf tri.id0 (fromTriangles ts).ids,
              idxOf tri.id1 (fromTriangles ts).ids,
              idxOf tri.id2 (fromTriangles ts).ids)) := by
  induction ts using List.reverseRecOn with
  | nil =>
    refine ⟨⟨rfl, rfl, List.Pairwise.nil, rfl, ?_, ?_⟩, rfl, ?_⟩
    · intro x
      simp [fromTriangles, WeldState.empty, lookupA]
    · intro i x hq
      have hids : (fromTriangles ([] : List (TriangleM P))).ids = [] := rfl
      rw [hids, List.get?_len_le (by simp)] at hq
      simp at hq
    · intro m tri hm
      rw [List.get?_len_le (by simp)] at hm
      simp at hm
  | append_singleton ts t ih =>
    have hfold : fromTriangles (ts ++ [t]) = processTriangle (fromTriangles ts) t := by
      unfold fromTriangles
      rw [List.foldl_append]
      rfl
    rw [hfold]
    obtain ⟨hc, hflen, hface⟩ := ih
    exact processTriangle_inv ts t (fromTriangles ts) hc hflen hface

/-! ## Claim C8 -/

/-- C8: `Mesh::from_triangles` welds every triangle list so that the stored
identifier list has no duplicates and lists identifiers in order of first
occurrence in the corner stream; each vertex position is the position
attached to the first occurrence of its identifier; the number of faces
equals the number of input triangles; and each face's three indices are the
slots of that triangle's three identifiers in the identifier list. -/
theorem C8_mesh_welding {P : Type} (ts : List (TriangleM P)) :
    (fromTriangles ts).ids.Nodup
    ∧ (fromTriangles ts).ids = firstSeen ((cornerStream ts).map Prod.fst)
    ∧ (fromTriangles ts).vertex.length = (fromTriangles ts).ids.length
    ∧ (∀ (i : Nat) (x : Nat), (fromTriangles ts).ids.get? i = some x →
        firstPos (cornerStream ts) x = (fromTriangles ts).vertex.get? i)
    ∧ (fromTriangles ts).faces.length = ts.length
    ∧ (∀ (m : Nat) (tri : TriangleM P), ts.get? m = some tri →
        (fromTriangles ts).faces.get? m
          = some (idxOf tri.id0 (fromTriangles ts).ids,
              idxOf tri.id1 (fromTriangles ts).ids,
              idxOf tri.id2 (fromTriangles ts).ids)) := by
  obtain ⟨hc, hflen, hface⟩ := fromTriangles_inv ts
  exact ⟨hc.hnodup, hc.hfs, hc.hlen.symm, hc.hvert, hflen, hface⟩

/-- Witness for C8 on two triangles sharing two identifiers: four welded
identifiers in first-seen order, the shared identifier keeps its first
position, and the second face points at the shared slots. -/
theorem C8_mesh_welding_witness :
    (fromTriangles [⟨10, 11, 12, 100, 101, 102⟩,
      (⟨20, 21, 22, 102, 101, 103⟩ : TriangleM Nat)]).ids = [100, 101, 102, 103]
    ∧ firstPos (cornerStream [⟨10, 11, 12, 100, 101, 102⟩,
        (⟨20, 21, 22, 102, 101, 103⟩ : TriangleM Nat)]) 102
      = (fromTriangles [⟨10, 11, 12, 100, 101, 102⟩,
          (⟨20, 21, 22, 102, 101, 103⟩ : TriangleM Nat)]).vertex.get? 2
    ∧ (fromTriangles [⟨10, 11, 12, 100, 101, 102⟩,
        (⟨20, 21, 22, 102, 101, 103⟩ : TriangleM Nat)]).faces.get? 1
      = some (2, 1, 3) := by
  refine ⟨by decide, ?_, ?_⟩
  · exact (C8_mesh_welding [⟨10, 11, 12, 100, 101, 102⟩,
      (⟨20, 21, 22, 102, 101, 103⟩ : TriangleM Nat)]).2.2.2.1 2 102 (by decide)
  · have h := (C8_mesh_welding [⟨10, 11, 12, 100, 101, 102⟩,
      (⟨20, 21, 22, 102, 101, 103⟩ : TriangleM Nat)]).2.2.2.2.2 1
      ⟨20, 21, 22, 102, 101, 103⟩ (by decide)
    rw [h]
    decide

/-! ## Generation order of update_terrain (Terrain::update_terrain)

`update_terrain` collects the leaf keys intersecting the active regions,
sorts them by DESCENDING distance from the camera (the comparator compares
`b`'s distance against `a`'s), and then iterates the sorted list with
`.rev()`, pushing `GenerateChunk(key)` onto the injector at each step.  The
f32 camera distance of a key's bounds-center is abstracted as a function
into a linear order; Rust's `sort_by` is a stable sort, modelled by the
stable `List.insertionSort`. -/

def sortKeysByDescDistance {K A : Type} [LinearOrder A]
    (dist : K → A) (keys : List K) : List K :=
  List.insertionSort (fun a b => dist b ≤ dist a) keys

def update_terrain_pushes {K A : Type} [LinearOrder A]
    (dist : K → A) (keys : List K) : List K :=
  (sortKeysByDescDistance dist keys).reverse

/-! ## Claim C7 -/

/-- C7 counterexample: with two keys at distances 0 and 1, the pushed
sequence is `[0, 1]` — the nearer key is pushed FIRST, not after the
farther one: the index of the strictly nearer key is smaller, refuting
"any strictly nearer key is pushed after every strictly farther key". -/
theorem C7_generation_order_counterexample :
    update_terrain_pushes (fun k : Nat => k) [0, 1] = [0, 1]
    ∧ ¬ (∀ (i j a b : Nat),
          (update_terrain_pushes (fun k : Nat => k) [0, 1]).get? i = some a →
          (update_terrain_pushes (fun k : Nat => k) [0, 1]).get? j = some b →
          a < b → j < i) := by
  refine ⟨by decide, ?_⟩
  intro h
  have := h 0 1 0 1 (by decide) (by decide) (by decide)
  omega

/-- C7 (amended): for every camera-distance function and every key list,
the sequence of keys pushed onto the injector by `update_terrain` is
sorted by ASCENDING distance: every strictly nearer key is pushed BEFORE
every strictly farther key (the keys are sorted by descending distance and
then iterated in reverse; the crossbeam injector is a FIFO queue, so near
chunks are still dequeued first). -/
theorem C7_generation_order_amended {K A : Type} [LinearOrder A]
    (dist : K → A) (keys : List K) :
    List.Pairwise (fun a b => dist a ≤ dist b)
      (update_terrain_pushes dist keys) := by
  haveI : IsTotal K (fun a b => dist b ≤ dist a) :=
    ⟨fun a b => le_total (dist b) (dist a)⟩
  haveI : IsTrans K (fun a b => dist b ≤ dist a) :=
    ⟨fun _ _ _ hab hbc => le_trans hbc hab⟩
  have hs := List.sorted_insertionSort (fun a b => dist b ≤ dist a) keys
  unfold update_terrain_pushes sortKeysByDescDistance
  rw [List.pairwise_reverse]
  exact hs

/-- Witness for the amended C7 at a concrete distance function and key
list: the pushed sequence is nondecreasing in distance. -/
theorem C7_generation_order_amended_witness :
    List.Pairwise (fun a b : Nat => a ≤ b)
      (update_terrain_pushes (fun k : Nat => k) [2, 0, 1]) :=
  C7_generation_order_amended (fun k : Nat => k) [2, 0, 1]

/-! ## Region predicates (game/base.rs)

`Region` wraps a point list.  `contains_point` and `intersects_line` both
begin with `if self.0.len() < 3 { return false; }` and then loop over the
edges with early returns.  f32 coordinates are embedded as exact rationals:
the degenerate-polygon guard is independent of the arithmetic, and the loop
bodies are translated verbatim (cross-product sign counting with early
exit for `contains_point`, vertex hits and the ccw segment test for
`intersects_line`).  The wrap-around index `(i + 1) % len` is always in
bounds when the loop runs, so the `getD` default is never consulted. -/

structure Point2 where
  x : ℚ
  y : ℚ
deriving DecidableEq

structure Region where
  points : List Point2

def containsPointLoop (ps : List Point2) (p : Point2)
    (i : Nat) (pos neg : Nat) : Bool :=
  if h : i < ps.length then
    let p1 := ps.get ⟨i, h⟩
    if p1 = p then true
    else
      let p2 := ps.getD ((i + 1) % ps.length) ⟨0, 0⟩
      let d := (p.x - p1.x) * (p2.y - p1.y) - (p.y - p1.y) * (p2.x - p1.x)
      let pos2 := if 0 < d then pos + 1 else pos
      let neg2 := if d < 0 then neg + 1 else neg
      if 0 < pos2 ∧ 0 < neg2 then false
      else containsPointLoop ps p (i + 1) pos2 neg2
  else true
termination_by ps.length - i

def Region.contains_point (r : Region) (p : Point2) : Bool :=
  if r.points.length < 3 then false
  else containsPointLoop r.points p 0 0 0

def ccw (a b c : Point2) : Bool :=
  (b.y - a.y) * (c.x - a.x) < (c.y - a.y) * (b.x - a.x)

def line_intersects (a b c d : Point2) : Bool :=
  (ccw a c d != ccw b c d) && (ccw a b c != ccw a b d)

def intersectsLineLoop (ps : List Point2) (a b : Point2) (i : Nat) : Bool :=
  if h : i < ps.length then
    let c := ps.get ⟨i, h⟩
    if c = a ∨ c = b then true
    else
      let d := ps.getD ((i + 1) % ps.length) ⟨0, 0⟩
      if line_intersects a b c d then true
      else intersectsLineLoop ps a b (i + 1)
  else false
termination_by ps.length - i

def Region.intersects_line (r : Region) (a b : Point2) : Bool :=
  if r.points.length < 3 then false
  else intersectsLineLoop r.points a b 0

/-! ## Claim C10 -/

/-- C10: every Region built from fewer than 3 points contains no point and
crosses no segment: both public predicates short-circuit to false on the
degenerate-polygon guard before touching any geometry. -/
theorem C10_degenerate_region_guard (r : Region) (h : r.points.length < 3) :
    (∀ p, r.contains_point p = false)
    ∧ (∀ a b, r.intersects_line a b = false) := by
  constructor
  · intro p
    unfold Region.contains_point
    rw [if_pos h]
  · intro a b
    unfold Region.intersects_line
    rw [if_pos h]

/-- Witness for C10 on a two-point region: it contains neither a far-away
point nor is crossed by a segment through both of its vertices. -/
theorem C10_degenerate_region_guard_witness :
    (Region.mk [⟨0, 0⟩, ⟨1, 0⟩]).points.length < 3
    ∧ (Region.mk [⟨0, 0⟩, ⟨1, 0⟩]).contains_point ⟨5, 5⟩ = false
    ∧ (Region.mk [⟨0, 0⟩, ⟨1, 0⟩]).intersects_line ⟨0, 0⟩ ⟨1, 0⟩ = false := by
  have h := C10_degenerate_region_guard (Region.mk [⟨0, 0⟩, ⟨1, 0⟩]) (by decide)
  exact ⟨by decide, h.1 ⟨5, 5⟩, h.2 ⟨0, 0⟩ ⟨1, 0⟩⟩
